import Mathlib

/-!
Shallow embedding of `lucid/maplayout.py`: the hierarchical directional
layout engine (tree builder, position calculator, depth-first layout
engine, connector renderer, group-wrapper geometry), together with
theorems settling the specification's claims against it.

Qt scene and group geometry (`scenePos`, `addToGroup`, `setPos`,
`sceneBoundingRect`) is external to the repository (the spec's Canvas
collaborator); it is embedded by the documented Qt semantics the code
relies on: an item added to a group keeps its scene position, moving a
group moves its current members rigidly, and a group's scene bounding
rectangle is the union of its members' scene rectangles (the group's own
position with zero extent when it has no members). Python's unbounded
recursion is embedded with explicit fuel; one more than the number of
node identifiers is always enough, which the lemmas below prove.
-/

namespace MapLayout

/-- Node identifiers: `build_tree` keys nodes by their `idx`. -/
abbrev Id := Nat

/-- The eight anchor directions (spec section 3). -/
inductive Dir
  | n
  | s
  | e
  | w
  | ne
  | nw
  | se
  | sw
deriving DecidableEq, Repr

/-- Membership test mirroring Python's substring check `'n' in direction`. -/
def Dir.hasN : Dir → Bool
  | .n | .ne | .nw => true
  | _ => false

/-- Membership test mirroring Python's substring check `'s' in direction`. -/
def Dir.hasS : Dir → Bool
  | .s | .se | .sw => true
  | _ => false

/-- Membership test mirroring Python's substring check `'e' in direction`. -/
def Dir.hasE : Dir → Bool
  | .e | .ne | .se => true
  | _ => false

/-- Membership test mirroring Python's substring check `'w' in direction`. -/
def Dir.hasW : Dir → Bool
  | .w | .nw | .sw => true
  | _ => false

/-- Modelled from the spec: `maploader._INVERT_DIRECTION` lives in the
map-loading collaborator, outside the source under review; spec section 3
defines the inversion table as invert(n)=s, invert(e)=w, invert(ne)=sw,
invert(nw)=se, and symmetrically. -/
def invertDir : Dir → Dir
  | .n => .s
  | .s => .n
  | .e => .w
  | .w => .e
  | .ne => .sw
  | .sw => .ne
  | .nw => .se
  | .se => .nw

/-- A node's `connections`: the insertion-ordered `defaultdict(list)`
mapping directions to the children attached under them, given per node
identifier. -/
abbrev Conn := Id → List (Dir × List Id)

/-- DiagramNode.get_nodes: all direct children of a node, in connection
order (the flattening of the per-direction lists). -/
def get_nodes (t : Conn) (i : Id) : List Id :=
  (t i).foldr (fun p acc => p.2 ++ acc) []

/-- One edge of the connection graph: `j` is a direct child of `i`. -/
def edge (t : Conn) (i j : Id) : Prop := j ∈ get_nodes t i

/-- Reachability along child edges. -/
def Reach (t : Conn) : Id → Id → Prop := Relation.ReflTransGen (edge t)

/-- One level of `DiagramNode.walk_depth_first`: iterate over the child
list at the current node, skipping children already in `visited`, and
recursing (through `rec`) into fresh ones after appending them to
`visited`. Returns the yielded nodes and the final visited list. -/
def walkChildren (rec : Id → List Id → List Id × List Id) :
    List Id → List Id → List Id × List Id
  | [], vis => ([], vis)
  | c :: cs, vis =>
    if c ∈ vis then walkChildren rec cs vis
    else
      let r1 := rec c (vis ++ [c])
      let r2 := walkChildren rec cs r1.2
      (r1.1 ++ r2.1, r2.2)

/-- DiagramNode.walk_depth_first with explicit fuel: process the children,
then append the node itself to `visited` and yield it last. -/
def walkAux (t : Conn) : Nat → Id → List Id → List Id × List Id
  | 0, _, vis => ([], vis)
  | fuel + 1, i, vis =>
    let r := walkChildren (walkAux t fuel) (get_nodes t i) vis
    (r.1 ++ [i], r.2 ++ [i])

/-- DiagramNode.walk_depth_first called with no visited argument, on a
graph whose identifiers all lie below `N`. -/
def walk_depth_first (t : Conn) (N : Nat) (i : Id) : List Id :=
  (walkAux t (N + 1) i []).1

/-- Errors build_tree can raise: Python `KeyError` for a child id with no
shape, and `ValueError('Not only one root?')` for the malformed tree. -/
inductive BuildErr
  | keyError
  | malformedTree
deriving DecidableEq, Repr

/-- The parent-rewiring pass of `build_tree`: for each shape id in order,
for each declared (direction, child-id) pair, point the child's `parent`
at that node; a child id without a shape raises `KeyError`. -/
def apply_connections (shapes : List Id) (decl : Id → List (Dir × Id)) :
    Except BuildErr (Id → Option Id) :=
  shapes.foldlM
    (fun pm i =>
      (decl i).foldlM
        (fun pm dc =>
          if dc.2 ∈ shapes then pure (Function.update pm dc.2 (some i))
          else .error .keyError)
        pm)
    (fun _ => none)

/-- build_tree: build one node per shape id, rewire parents from the
declaration, and return the unique parent-less node together with the
parent assignment; `malformedTree` when the number of parent-less nodes
differs from one. -/
def build_tree (shapes : List Id) (decl : Id → List (Dir × Id)) :
    Except BuildErr (Id × (Id → Option Id)) := do
  let pm ← apply_connections shapes decl
  match shapes.filter (fun i => (pm i).isNone) with
  | [r] => pure (r, pm)
  | _ => .error .malformedTree

/-- The tuple `DiagramNode.get_bounding_rect` returns: the shape's scene
x and y, the widget's width and height, and the x, y, width and height of
the node's group's scene bounding rectangle. -/
structure BRect where
  x : ℚ
  y : ℚ
  w : ℚ
  h : ℚ
  gx : ℚ
  gy : ℚ
  gw : ℚ
  gh : ℚ
deriving DecidableEq, Repr

/-- calculate_position: the placement offset for one side of a
parent/child edge. With `parent_to_node = true` the child (`nd`) anchors
the not-yet-positioned parent through the inverted direction, with the
group-inflation spacing corrections; otherwise the positioned parent
anchors the child through the direction as declared, with `spacing_y`
left at its initial value 0 as in the source. -/
def calculate_position (p nd : BRect) (direction : Dir)
    (min_spacing : ℚ) (parent_to_node : Bool) : ℚ × ℚ :=
  if parent_to_node then
    let inv := invertDir direction
    let spacing_x : ℚ :=
      if inv.hasE then (if nd.x = 0 then nd.gw - nd.w else 0)
      else if inv.hasW then (if nd.x ≠ 0 then nd.gw - nd.w else 0)
      else 0
    if inv.hasN ∨ inv.hasS then
      let x :=
        if inv.hasE then nd.x + nd.w + spacing_x + min_spacing
        else if inv.hasW then nd.x - min_spacing - spacing_x - p.w
        else nd.x + nd.w / 2 - p.w / 2
      if inv.hasN then
        let spacing_y : ℚ := if nd.y ≠ nd.gy then nd.gh - nd.h else 0
        (x, nd.y - min_spacing - spacing_y - p.h)
      else
        let spacing_y : ℚ := if nd.y = 0 then nd.gh - nd.h else 0
        (x, nd.y + nd.h + min_spacing + spacing_y)
    else if inv.hasE then
      (nd.x + nd.w + spacing_x + min_spacing, nd.y + nd.h / 2 - p.h / 2)
    else
      (nd.x - min_spacing - spacing_x - p.w, nd.y + nd.h / 2 - p.h / 2)
  else
    let spacing_y : ℚ := 0
    if direction.hasN ∨ direction.hasS then
      let x :=
        if direction.hasE then p.x + p.w + min_spacing
        else if direction.hasW then p.x - min_spacing - nd.w
        else p.x + p.w / 2 - nd.w / 2
      if direction.hasN then (x, nd.y - min_spacing - spacing_y - p.h)
      else (x, p.y + p.h + min_spacing)
    else if direction.hasE then
      (p.x + p.w + min_spacing, p.y + p.h / 2 - nd.h / 2)
    else if direction.hasW then
      (p.x - min_spacing - nd.w, p.y + p.h / 2 - nd.h / 2)
    else (p.x, p.y)

/-- The scene and node state the layout engine mutates. Shape positions
are absolute scene coordinates; `memberOf i` is the group (named by its
owning node) currently holding shape `i`; `groupPos` is each group's own
position; `inScene` records which groups were added to the scene;
`positioned` is the per-node flag; `log` records every `setPos` call on a
group, in order. -/
structure LState where
  pos : Id → ℚ × ℚ
  groupPos : Id → ℚ × ℚ
  memberOf : Id → Option Id
  inScene : Id → Bool
  positioned : Id → Bool
  log : List (Id × (ℚ × ℚ))

/-- Qt `addToGroup`: reparent a shape into a group; its scene position is
kept, so only the membership changes. -/
def LState.addShape (st : LState) (g i : Id) : LState :=
  { st with memberOf := Function.update st.memberOf i (some g) }

/-- Qt `setPos` on a group: the group moves to `q` and its current
members move rigidly with it. -/
def LState.setGroupPos (st : LState) (g : Id) (q : ℚ × ℚ) : LState :=
  let d : ℚ × ℚ := (q.1 - (st.groupPos g).1, q.2 - (st.groupPos g).2)
  { st with
    pos := fun i =>
      if st.memberOf i = some g then
        ((st.pos i).1 + d.1, (st.pos i).2 + d.2)
      else st.pos i
    groupPos := Function.update st.groupPos g q
    log := st.log ++ [(g, q)] }

/-- Qt `sceneBoundingRect` of a node's group: the union of the member
shapes' scene rectangles, or the group's own position with zero extent
when it has no members. `N` bounds the identifier universe, `sz` gives
widget sizes. Returns (x, y, width, height). -/
def groupSceneRect (N : Nat) (sz : Id → ℚ × ℚ) (st : LState) (g : Id) :
    ℚ × ℚ × ℚ × ℚ :=
  match (List.range N).filter (fun i => st.memberOf i = some g) with
  | [] => ((st.groupPos g).1, (st.groupPos g).2, 0, 0)
  | m :: rest =>
    let corner := fun (i : Id) =>
      ((st.pos i).1, (st.pos i).2,
        (st.pos i).1 + (sz i).1, (st.pos i).2 + (sz i).2)
    let u := rest.foldl
      (fun (a : ℚ × ℚ × ℚ × ℚ) i =>
        (min a.1 (corner i).1, min a.2.1 (corner i).2.1,
          max a.2.2.1 (corner i).2.2.1, max a.2.2.2 (corner i).2.2.2))
      (corner m)
    (u.1, u.2.1, u.2.2.1 - u.1, u.2.2.2 - u.2.1)

/-- DiagramNode.get_bounding_rect, reading the current scene state. -/
def get_bounding_rect (N : Nat) (sz : Id → ℚ × ℚ) (st : LState) (i : Id) :
    BRect :=
  let g := groupSceneRect N sz st i
  { x := (st.pos i).1, y := (st.pos i).2
    w := (sz i).1, h := (sz i).2
    gx := g.1, gy := g.2.1, gw := g.2.2.1, gh := g.2.2.2 }

/-- Errors the traversal can signal: `notConnected` is the
`ValueError('not connected')` of get_direction_to_child; `fuel` marks
exhaustion of the recursion fuel (impossible with adequate fuel). -/
inductive LErr
  | notConnected
  | fuel
deriving DecidableEq, Repr

/-- Helper of get_direction_to_child: scan the connection entries for the
first direction whose child list holds the node. -/
def find_direction (node : Id) : List (Dir × List Id) → Except LErr Dir
  | [] => .error .notConnected
  | (d, ns) :: rest =>
    if node ∈ ns then .ok d else find_direction node rest

/-- DiagramNode.get_direction_to_child: the first direction whose child
list holds the node, else the `ValueError('not connected')` signal. -/
def get_direction_to_child (t : Conn) (parent node : Id) : Except LErr Dir :=
  find_direction node (t parent)

/-- Python dict assignment `connections[dir] = node`: replace the entry
for the direction in place, or append a new one. -/
def insertConn : List (Dir × Id) → Dir → Id → List (Dir × Id)
  | [], d, i => [(d, i)]
  | (d', i') :: rest, d, i =>
    if d' = d then (d, i) :: rest else (d', i') :: insertConn rest d i

/-- One iteration of layout's placement loop for a `(direction, node)`
entry: place the child's group relative to the already positioned parent,
or place the parent's group relative to the child (marking the parent
positioned); in either case merge the child's subtree shapes, and the
child's shape, into the parent's group (the duplicated merge loop is in
the source). -/
def placeStep (t : Conn) (N : Nat) (sz : Id → ℚ × ℚ) (min_spacing : ℚ)
    (parent : Id) (st : LState) (dn : Dir × Id) : LState :=
  let node := dn.2
  let st1 :=
    if st.positioned parent then
      let q := calculate_position (get_bounding_rect N sz st parent)
        (get_bounding_rect N sz st node) dn.1 min_spacing false
      let stA :=
        if st.inScene node then st
        else
          { st.addShape node node with
            inScene := Function.update st.inScene node true }
      stA.setGroupPos node q
    else
      let q := calculate_position (get_bounding_rect N sz st parent)
        (get_bounding_rect N sz st node) dn.1 min_spacing true
      let stA :=
        if st.inScene parent then st
        else
          { st.addShape parent parent with
            inScene := Function.update st.inScene parent true }
      let stB := stA.setGroupPos parent q
      { stB with positioned := Function.update stB.positioned parent true }
  let st2 := (get_nodes t node).foldl (fun s j => s.addShape parent j) st1
  let st3 := (get_nodes t node).foldl (fun s j => s.addShape parent j) st2
  st3.addShape parent node

/-- The placement loop of layout over the collected `(direction, node)`
entries. -/
def layoutPlace (t : Conn) (N : Nat) (sz : Id → ℚ × ℚ) (min_spacing : ℚ)
    (parent : Id) (conns : List (Dir × Id)) (st : LState) : LState :=
  conns.foldl (placeStep t N sz min_spacing parent) st

/-- The traversal loop of layout: for each node yielded by
walk_depth_first from the parent, look up its direction from the parent —
catching the not-connected signal by skipping the node — recurse
(through `rec`) into nodes whose own subtree has more than one member,
and record the `(direction, node)` entry. -/
def layoutWalk (t : Conn) (N : Nat)
    (rec : Id → LState → List Id → Except LErr (LState × List Id))
    (parent : Id) :
    List Id → LState → List Id → List (Dir × Id) →
    Except LErr (LState × List Id × List (Dir × Id))
  | [], st, visited, conns => .ok (st, visited, conns)
  | node :: rest, st, visited, conns =>
    match get_direction_to_child t parent node with
    | .error _ => layoutWalk t N rec parent rest st visited conns
    | .ok d =>
      if 1 < (walk_depth_first t N node).length then
        match rec node st visited with
        | .error e => .error e
        | .ok r =>
          layoutWalk t N rec parent rest r.1 r.2 (insertConn conns d node)
      else
        layoutWalk t N rec parent rest st visited (insertConn conns d node)

/-- layout with explicit fuel: the visited guard, then the recursive
traversal pass, then the placement pass. -/
def layoutAux (t : Conn) (N : Nat) (sz : Id → ℚ × ℚ) (min_spacing : ℚ) :
    Nat → Id → LState → List Id → Except LErr (LState × List Id)
  | 0, _, _, _ => .error .fuel
  | fuel + 1, parent, st, visited =>
    if parent ∈ visited then .ok (st, visited)
    else
      match layoutWalk t N (layoutAux t N sz min_spacing fuel) parent
          (walk_depth_first t N parent) st (visited ++ [parent]) [] with
      | .error e => .error e
      | .ok r =>
        .ok (layoutPlace t N sz min_spacing parent r.2.2 r.1, r.2.1)

/-- A layout call with fuel `N + 1` (always adequate, proved below). The
`root` argument is carried along, as in the source, but never read. -/
def layout (t : Conn) (N : Nat) (sz : Id → ℚ × ℚ) (root parent : Id)
    (min_spacing : ℚ) (st : LState) (visited : List Id) :
    Except LErr (LState × List Id) :=
  layoutAux t N sz min_spacing (N + 1) parent st visited

/-- The per-direction anchor offsets of connect_widgets: exactly the
`offsets` dictionary of the source (parent dx, parent dy, child dx,
child dy). -/
def connect_offsets (p_w p_h n_w n_h : ℚ) : Dir → ℚ × ℚ × ℚ × ℚ
  | .n => (p_w / 2, 0, n_w / 2, n_h)
  | .s => (p_w / 2, p_h, n_w / 2, 0)
  | .e => (p_w, p_h / 2, 0, n_h / 2)
  | .w => (0, p_h / 2, n_w, n_h / 2)
  | .nw => (0, 0, n_w, n_h)
  | .ne => (p_w, 0, 0, n_h)
  | .sw => (0, p_h, n_w, 0)
  | .se => (p_w, p_h, 0, 0)

/-- The line connect_widgets adds to the scene for one `(direction, node)`
entry: each endpoint is that shape's scene position plus the direction's
offset for its side. -/
def connect_line (ppos : ℚ × ℚ) (p_w p_h : ℚ) (npos : ℚ × ℚ)
    (n_w n_h : ℚ) (d : Dir) : (ℚ × ℚ) × (ℚ × ℚ) :=
  let o := connect_offsets p_w p_h n_w n_h d
  ((ppos.1 + o.1, ppos.2 + o.2.1), (npos.1 + o.2.2.1, npos.2 + o.2.2.2))

/-- Follows the spec's words (the section 4.4 table): the parent-side
anchor offset for each direction. -/
def spec_parent_anchor (pw ph : ℚ) : Dir → ℚ × ℚ
  | .n => (pw / 2, 0)
  | .s => (pw / 2, ph)
  | .e => (pw, ph / 2)
  | .w => (0, ph / 2)
  | .ne => (pw, 0)
  | .nw => (0, 0)
  | .se => (pw, ph)
  | .sw => (0, ph)

/-- Follows the spec's words (the section 4.4 table): the child-side
anchor offset for each direction. -/
def spec_child_anchor (nw nh : ℚ) : Dir → ℚ × ℚ
  | .n => (nw / 2, nh)
  | .s => (nw / 2, 0)
  | .e => (0, nh / 2)
  | .w => (nw, nh / 2)
  | .ne => (0, nh)
  | .nw => (nw, nh)
  | .se => (0, 0)
  | .sw => (nw, 0)

/-- The traversal loop of connect_widgets: identical to layout's first
loop — visited-guarded recursion (through `rec`) into nodes rooting
larger subtrees, collecting the `(direction, node)` entries and the lines
drawn by the recursive calls. -/
def connectWalk (t : Conn) (N : Nat)
    (rec : Id → List Id → List ((ℚ × ℚ) × (ℚ × ℚ)) →
      Except LErr (List Id × List ((ℚ × ℚ) × (ℚ × ℚ))))
    (parent : Id) :
    List Id → List Id → List ((ℚ × ℚ) × (ℚ × ℚ)) → List (Dir × Id) →
    Except LErr (List Id × List ((ℚ × ℚ) × (ℚ × ℚ)) × List (Dir × Id))
  | [], visited, lines, conns => .ok (visited, lines, conns)
  | node :: rest, visited, lines, conns =>
    match get_direction_to_child t parent node with
    | .error _ => connectWalk t N rec parent rest visited lines conns
    | .ok d =>
      if 1 < (walk_depth_first t N node).length then
        match rec node visited lines with
        | .error e => .error e
        | .ok r =>
          connectWalk t N rec parent rest r.1 r.2 (insertConn conns d node)
      else
        connectWalk t N rec parent rest visited lines (insertConn conns d node)

/-- connect_widgets: the same visited-guarded traversal as layout, only
reading positions; per collected `(direction, node)` entry it adds one
line to the scene, with the endpoints connect_line computes from the two
shapes' scene positions and widget sizes. -/
def connect_widgets (t : Conn) (N : Nat) (sz : Id → ℚ × ℚ) (st : LState) :
    Nat → Id → List Id → List ((ℚ × ℚ) × (ℚ × ℚ)) →
    Except LErr (List Id × List ((ℚ × ℚ) × (ℚ × ℚ)))
  | 0, _, _, _ => .error .fuel
  | fuel + 1, parent, visited, lines =>
    if parent ∈ visited then .ok (visited, lines)
    else
      match connectWalk t N (connect_widgets t N sz st fuel) parent
          (walk_depth_first t N parent) (visited ++ [parent]) lines [] with
      | .error e => .error e
      | .ok r =>
        .ok (r.1, r.2.1 ++ r.2.2.map (fun dn =>
          connect_line (st.pos parent) (sz parent).1 (sz parent).2
            (st.pos dn.2) (sz dn.2).1 (sz dn.2).2 dn.1))

/-- The `(direction, node)` entry the traversal records for a walked
node: its direction from the parent when the lookup succeeds, nothing
when the node is not a direct child. -/
def chooseEdge (t : Conn) (parent c : Id) : Option (Dir × Id) :=
  match get_direction_to_child t parent c with
  | .ok d => some (d, c)
  | .error _ => none

/-- A declared direct edge: the connection table of `p` lists the child
`c` under direction `d`. -/
def declared_edge (t : Conn) (p : Id) (d : Dir) (c : Id) : Prop :=
  ∃ ns, (d, ns) ∈ t p ∧ c ∈ ns

/-- Follows the spec's words (the section 4.4 table): the straight line
prescribed for a direct edge `(parent, direction, child)` — from the
parent's scene position plus the parent-side anchor offset to the
child's scene position plus the child-side anchor offset. -/
def spec_table_line (sz : Id → ℚ × ℚ) (st : LState)
    (e : Id × Dir × Id) : (ℚ × ℚ) × (ℚ × ℚ) :=
  (((st.pos e.1).1 + (spec_parent_anchor (sz e.1).1 (sz e.1).2 e.2.1).1,
    (st.pos e.1).2 + (spec_parent_anchor (sz e.1).1 (sz e.1).2 e.2.1).2),
   ((st.pos e.2.2).1 + (spec_child_anchor (sz e.2.2).1 (sz e.2.2).2 e.2.1).1,
    (st.pos e.2.2).2 + (spec_child_anchor (sz e.2.2).1 (sz e.2.2).2 e.2.1).2))

/-- Axis-aligned rectangle (x, y, width, height). -/
@[ext]
structure Rect where
  x : ℚ
  y : ℚ
  w : ℚ
  h : ℚ
deriving DecidableEq, Repr

/-- Qt `QRectF.united` on the non-null rectangles this code works with:
the smallest rectangle containing both. -/
def Rect.union (a b : Rect) : Rect :=
  { x := min a.x b.x
    y := min a.y b.y
    w := max (a.x + a.w) (b.x + b.w) - min a.x b.x
    h := max (a.y + a.h) (b.y + b.h) - min a.y b.y }

/-- Accumulator step of Qt `childrenBoundingRect`: fold member rectangles
together, starting from the null rectangle (`none`). -/
def unionStep (o : Option Rect) (r : Rect) : Option Rect :=
  match o with
  | none => some r
  | some u => some (u.union r)

/-- Qt `childrenBoundingRect` at wrapper construction time, over the
member proxies' rectangles (reparented with scene positions kept): their
union, the null rectangle when there are none. -/
def childrenBoundingRect (members : List Rect) : Rect :=
  (members.foldl unionStep none).getD ⟨0, 0, 0, 0⟩

/-- Qt `QRectF.marginsAdded` with a uniform margin on all four sides. -/
def Rect.marginsAdded (r : Rect) (m : ℚ) : Rect :=
  ⟨r.x - m, r.y - m, r.w + 2 * m, r.h + 2 * m⟩

/-- The bounding box `_GroupWrapper.__init__` fixes:
`self.childrenBoundingRect().marginsAdded(margins)` with the default
margins of 5 units on every side. -/
def groupWrapperRect (members : List Rect) : Rect :=
  (childrenBoundingRect members).marginsAdded 5

/-- Follows the spec's words: the union of the member boxes — the least
member x and y, the greatest right and bottom edges — expanded by exactly
5 units on each of the four sides; stated on a nonempty list given as
head and tail. -/
def spec_group_box (r : Rect) (rs : List Rect) : Rect :=
  let left := (rs.map Rect.x).foldl min r.x
  let top := (rs.map Rect.y).foldl min r.y
  let right := (rs.map (fun s => s.x + s.w)).foldl max (r.x + r.w)
  let bottom := (rs.map (fun s => s.y + s.h)).foldl max (r.y + r.h)
  ⟨left - 5, top - 5, (right - left) + 2 * 5, (bottom - top) + 2 * 5⟩

/-- The end-to-end scenario tree of the spec: A = 0 connects east to
B = 1, and B connects south to C = 2. -/
def t3 : Conn := fun i =>
  match i with
  | 0 => [(Dir.e, [1])]
  | 1 => [(Dir.s, [2])]
  | _ => []

/-- Scenario widget sizes: A is 40 by 20, B is 30 by 10, C is 20 by 20. -/
def sz3 : Id → ℚ × ℚ := fun i =>
  match i with
  | 0 => (40, 20)
  | 1 => (30, 10)
  | _ => (20, 20)

/-- A fresh scene state: every shape at the origin, no groups populated,
nothing positioned — the state `layout_instantiated_map` reaches right
after `scene.addWidget` on every widget. -/
def st0 : LState :=
  { pos := fun _ => (0, 0)
    groupPos := fun _ => (0, 0)
    memberOf := fun _ => none
    inScene := fun _ => false
    positioned := fun _ => false
    log := [] }

/-- The scenario run: `layout(scene, A, A, min_spacing=30)` from the
fresh state. -/
def run3 : Except LErr (LState × List Id) := layout t3 3 sz3 0 0 30 st0 []

/-- A two-node tree: A = 0 connects east to its single leaf B = 1. -/
def t2 : Conn := fun i =>
  match i with
  | 0 => [(Dir.e, [1])]
  | _ => []

/-- Sizes for the two-node tree. -/
def sz2 : Id → ℚ × ℚ := fun i =>
  match i with
  | 0 => (40, 20)
  | _ => (30, 10)

/-- First top-level layout call on the two-node tree, fresh visited
list. -/
def run2 : Except LErr (LState × List Id) := layout t2 2 sz2 0 0 30 st0 []

/-- Second top-level layout call on the same root, receiving the state
and the visited list the first call left behind — exactly what Python's
shared mutable default argument `visited=[]` hands the second call. -/
def run2again : Except LErr (LState × List Id) :=
  match run2 with
  | .ok r => layout t2 2 sz2 0 0 30 r.1 r.2
  | .error e => .error e

/-- A graph exercising a node listed under two directions: 0 has child 1
under both e and s, and child 2 under s. -/
def tw : Conn := fun i =>
  match i with
  | 0 => [(Dir.e, [1]), (Dir.s, [1, 2])]
  | _ => []

/-- A build_tree declaration in input form (per parent, direction to one
child id): 0 connects east to 1, 1 connects south to 2. -/
def decl3 : Id → List (Dir × Id) := fun i =>
  match i with
  | 0 => [(Dir.e, 1)]
  | 1 => [(Dir.s, 2)]
  | _ => []

/-- Follows the spec's words: the anchoring node's visual group box is
larger than its own shape box along the horizontal axis, with the
inflation on the east side (the group's right edge extends beyond the
shape's right edge) — the side facing an eastward placement. -/
def inflatedOnEast (nd : BRect) : Prop :=
  nd.w < nd.gw ∧ nd.x + nd.w < nd.gx + nd.gw

/-- The pure parent assignment `build_tree` computes, ignoring the
dangling-child error path (equal to `apply_connections` whenever every
declared child id has a shape). -/
def parent_map (shapes : List Id) (decl : Id → List (Dir × Id)) :
    Id → Option Id :=
  shapes.foldl
    (fun pm i =>
      (decl i).foldl (fun pm dc => Function.update pm dc.2 (some i)) pm)
    (fun _ => none)

/-- The parent-less nodes left after applying every declared triple. -/
def parentless (shapes : List Id) (decl : Id → List (Dir × Id)) :
    List Id :=
  shapes.filter (fun i => (parent_map shapes decl i).isNone)

/-- The identifiers below `N` not yet in `vis`: the measure showing the
traversals' fuel adequate. -/
def missing (N : Nat) (vis : List Id) : Nat :=
  ((List.range N).filter (fun x => x ∉ vis)).length

/-- Closure invariant of walk_depth_first: every visited node outside the
exception list has all its children visited. -/
def ClosedW (t : Conn) (vis S : List Id) : Prop :=
  ∀ v ∈ vis, v ∉ S → ∀ c ∈ get_nodes t v, c ∈ vis

/-- The contract of one walk call: visited grows by exactly the yielded
nodes, every yielded node other than the target is fresh and strictly
reachable from it, the target is yielded last, and nothing repeats. -/
def WalkSpec (t : Conn) (i : Id) (vis : List Id)
    (out : List Id × List Id) : Prop :=
  (∀ x, x ∈ out.2 ↔ x ∈ vis ∨ x ∈ out.1) ∧
  (∀ y ∈ out.1, y = i ∨ (y ∉ vis ∧ Relation.TransGen (edge t) i y)) ∧
  (∃ ys, out.1 = ys ++ [i]) ∧
  out.1.Nodup

/-- Closure invariant of the layout traversal: every visited node outside
the exception list has every child that itself has children visited. -/
def ClosedL (t : Conn) (vis S : List Id) : Prop :=
  ∀ v ∈ vis, v ∉ S → ∀ c ∈ get_nodes t v, get_nodes t c ≠ [] → c ∈ vis

/-- Placement invariant of the layout traversal: every visited node
outside the exception list that has children carries positioned = true. -/
def ProcL (t : Conn) (st : LState) (vis S : List Id) : Prop :=
  ∀ v ∈ vis, v ∉ S → get_nodes t v ≠ [] → st.positioned v = true

/-- The contract a layout call on `target` obeys: it succeeds, grows the
visited list, records its target, restores the closure and placement
invariants for the given exception list, only ever sets positioned flags,
and leaves childless nodes' flags unchanged. -/
def LayoutOk (t : Conn) (target : Id) (res : Except LErr (LState × List Id))
    (st : LState) (vis S : List Id) : Prop :=
  ∃ st' vis', res = .ok (st', vis') ∧
    (∀ x ∈ vis, x ∈ vis') ∧ target ∈ vis' ∧
    ClosedL t vis' S ∧ ProcL t st' vis' S ∧
    (∀ j, st.positioned j = true → st'.positioned j = true) ∧
    (∀ j, get_nodes t j = [] → st'.positioned j = st.positioned j)

/-- The contract of one connect_widgets call on `target`: it succeeds,
grows the visited list only by nodes reachable from the target, keeps
the traversal closure invariant, and appends to the drawn lines exactly
one section 4.4 table line per declared direct edge of each parent it
newly finishes outside the exception list — without repetition. -/
def ConnectOk (t : Conn) (sz : Id → ℚ × ℚ) (st : LState) (target : Id)
    (res : Except LErr (List Id × List ((ℚ × ℚ) × (ℚ × ℚ))))
    (visited : List Id) (lines : List ((ℚ × ℚ) × (ℚ × ℚ)))
    (S : List Id) : Prop :=
  ∃ (vis' : List Id) (lines' : List ((ℚ × ℚ) × (ℚ × ℚ)))
    (newEdges : List (Id × Dir × Id)),
    res = .ok (vis', lines') ∧
    (∀ x ∈ visited, x ∈ vis') ∧ target ∈ vis' ∧
    (∀ x ∈ vis', x ∈ visited ∨ Reach t target x) ∧
    ClosedL t vis' S ∧
    lines' = lines ++ newEdges.map (spec_table_line sz st) ∧
    newEdges.Nodup ∧
    (∀ e ∈ newEdges, declared_edge t e.1 e.2.1 e.2.2 ∧
      e.1 ∈ vis' ∧ e.1 ∉ visited) ∧
    (∀ p, p ∈ vis' → p ∉ visited → p ∉ S →
      ∀ d c, declared_edge t p d c → (p, d, c) ∈ newEdges)

/-! Helper lemmas: membership in the connection flattening, direction
lookup, and the fuel measure. -/

/-- Membership in the flattening that underlies get_nodes. -/
theorem mem_foldr_flatten {l : List (Dir × List Id)} {c : Id} :
    c ∈ l.foldr (fun p acc => p.2 ++ acc) [] ↔ ∃ p ∈ l, c ∈ p.2 := by
  induction l with
  | nil => simp
  | cons p l ih => simp [ih]

/-- A node attached in some connection entry is a direct child. -/
theorem mem_get_nodes {t : Conn} {i c : Id} :
    c ∈ get_nodes t i ↔ ∃ p ∈ t i, c ∈ p.2 :=
  mem_foldr_flatten

/-- find_direction succeeds on any node occurring in some entry. -/
theorem find_direction_ok_of_mem {c : Id} {l : List (Dir × List Id)}
    (h : ∃ p ∈ l, c ∈ p.2) : ∃ d, find_direction c l = .ok d := by
  induction l with
  | nil => simp at h
  | cons p l ih =>
    by_cases hc : c ∈ p.2
    · exact ⟨p.1, by simp [find_direction, hc]⟩
    · obtain ⟨q, hq, hcq⟩ := h
      rcases List.mem_cons.mp hq with rfl | hq'
      · exact absurd hcq hc
      · obtain ⟨d, hd⟩ := ih ⟨q, hq', hcq⟩
        exact ⟨d, by simp [find_direction, hc, hd]⟩

/-- A successful find_direction names a node of some entry. -/
theorem mem_of_find_direction_ok {c : Id} {d : Dir}
    {l : List (Dir × List Id)} (h : find_direction c l = .ok d) :
    ∃ p ∈ l, c ∈ p.2 := by
  induction l with
  | nil => simp [find_direction] at h
  | cons p l ih =>
    by_cases hc : c ∈ p.2
    · exact ⟨p, List.mem_cons_self p l, hc⟩
    · rw [find_direction, if_neg hc] at h
      obtain ⟨q, hq, hcq⟩ := ih h
      exact ⟨q, List.mem_cons_of_mem _ hq, hcq⟩

/-- get_direction_to_child succeeds exactly on direct children. -/
theorem gdtc_ok_of_child {t : Conn} {parent c : Id} (h : edge t parent c) :
    ∃ d, get_direction_to_child t parent c = .ok d :=
  find_direction_ok_of_mem (mem_get_nodes.mp h)

/-- A successful direction lookup names a direct child. -/
theorem child_of_gdtc_ok {t : Conn} {parent c : Id} {d : Dir}
    (h : get_direction_to_child t parent c = .ok d) : edge t parent c :=
  mem_get_nodes.mpr (mem_of_find_direction_ok h)

/-- Filtering with a stronger predicate never keeps more, and strictly
fewer when a kept element is dropped. -/
theorem length_filter_lt_of_mem {p q : Id → Bool} {a : Id}
    {l : List Id} (ha : a ∈ l) (hpa : p a = true) (hqa : q a = false)
    (himp : ∀ x, q x = true → p x = true) :
    (l.filter q).length < (l.filter p).length := by
  induction l with
  | nil => cases ha
  | cons b l ih =>
    rcases List.mem_cons.mp ha with rfl | hal
    · rw [List.filter_cons_of_pos hpa,
        List.filter_cons_of_neg (by simp [hqa])]
      exact Nat.lt_succ_of_le
        (List.Sublist.length_le
          (List.monotone_filter_right _ fun x hx => himp x hx))
    · by_cases hpb : p b = true
      · rw [List.filter_cons_of_pos hpb]
        by_cases hqb : q b = true
        · rw [List.filter_cons_of_pos hqb]
          simpa [Nat.succ_lt_succ_iff] using ih hal
        · rw [List.filter_cons_of_neg (by simpa using hqb)]
          exact Nat.lt_succ_of_lt (ih hal)
      · have hqb : q b = false := by
          cases hq : q b
          · rfl
          · exact absurd (himp b hq) hpb
        rw [List.filter_cons_of_neg (by simp [hqb]),
          List.filter_cons_of_neg (by simpa using hpb)]
        exact ih hal

/-- The fuel measure shrinks (weakly) as the visited list grows. -/
theorem missing_mono {N : Nat} {vis vis' : List Id}
    (h : ∀ x, x ∈ vis → x ∈ vis') : missing N vis' ≤ missing N vis :=
  List.Sublist.length_le
    (List.monotone_filter_right _ fun a ha => by
      simp only [decide_eq_true_eq] at ha ⊢
      exact fun hv => ha (h a hv))

/-- Appending a fresh identifier below the bound strictly shrinks the
fuel measure. -/
theorem missing_lt {N : Nat} {vis : List Id} {c : Id} (hc : c < N)
    (hvc : c ∉ vis) : missing N (vis ++ [c]) < missing N vis := by
  refine length_filter_lt_of_mem (List.mem_range.mpr hc) ?_ ?_ ?_
  · simpa using hvc
  · simp
  · intro x hx
    simp only [decide_eq_true_eq] at hx ⊢
    intro hv
    exact hx (by simpa using Or.inl hv)

/-- With nothing visited the fuel measure is the whole universe. -/
theorem missing_nil {N : Nat} : missing N ([] : List Id) = N := by
  simp [missing]

/-! The walk_depth_first specification. -/

/-- walkChildren only ever appends to the visited list. -/
theorem walkChildren_mono {rec : Id → List Id → List Id × List Id}
    (hrec : ∀ c vis, ∀ x ∈ vis, x ∈ (rec c vis).2) :
    ∀ (cs vis : List Id), ∀ x ∈ vis, x ∈ (walkChildren rec cs vis).2 := by
  intro cs
  induction cs with
  | nil => intro vis x hx; simpa [walkChildren] using hx
  | cons c cs ih =>
    intro vis x hx
    by_cases hc : c ∈ vis
    · simp only [walkChildren, if_pos hc]
      exact ih vis x hx
    · simp only [walkChildren, if_neg hc]
      exact ih _ x (hrec c (vis ++ [c]) x (by simp [hx]))

/-- walkAux only ever appends to the visited list. -/
theorem walkAux_mono {t : Conn} :
    ∀ (fuel : Nat) (i : Id) (vis : List Id),
      ∀ x ∈ vis, x ∈ (walkAux t fuel i vis).2 := by
  intro fuel
  induction fuel with
  | zero => intro i vis x hx; simpa [walkAux] using hx
  | succ fuel ih =>
    intro i vis x hx
    simp only [walkAux]
    exact List.mem_append_left _ (walkChildren_mono ih _ _ x hx)

/-- The loop of walk_depth_first meets its contract: the yields of the
processed children are fresh, strictly reachable from the source, and
free of repetition, and the visited list grows by exactly those yields. -/
theorem walkChildren_spec {t : Conn} {N : Nat} {fuel : Nat}
    (hrec : ∀ c vis, missing N vis < fuel →
      WalkSpec t c vis (walkAux t fuel c vis)) :
    ∀ (cs : List Id) (src : Id), (∀ c ∈ cs, c < N) →
      (∀ c ∈ cs, edge t src c) →
      ∀ vis, missing N vis < fuel + 1 →
      (∀ x, x ∈ (walkChildren (walkAux t fuel) cs vis).2 ↔
        x ∈ vis ∨ x ∈ (walkChildren (walkAux t fuel) cs vis).1) ∧
      (∀ y ∈ (walkChildren (walkAux t fuel) cs vis).1,
        y ∉ vis ∧ Relation.TransGen (edge t) src y) ∧
      (walkChildren (walkAux t fuel) cs vis).1.Nodup := by
  intro cs
  induction cs with
  | nil =>
    intro src hlt hedge vis hfuel
    refine ⟨fun x => by simp [walkChildren], by simp [walkChildren],
      by simp [walkChildren]⟩
  | cons c cs ih =>
    intro src hlt hedge vis hfuel
    have hltc : c < N := hlt c (List.mem_cons_self c cs)
    have hedgec : edge t src c := hedge c (List.mem_cons_self c cs)
    have hlt' : ∀ x ∈ cs, x < N := fun x hx => hlt x (List.mem_cons_of_mem c hx)
    have hedge' : ∀ x ∈ cs, edge t src x :=
      fun x hx => hedge x (List.mem_cons_of_mem c hx)
    by_cases hc : c ∈ vis
    · simpa only [walkChildren, if_pos hc] using ih src hlt' hedge' vis hfuel
    · have hm1 : missing N (vis ++ [c]) < fuel :=
        Nat.lt_of_lt_of_le (missing_lt hltc hc) (Nat.lt_succ_iff.mp hfuel)
      obtain ⟨s1mem, s1y, s1shape, s1nodup⟩ := hrec c (vis ++ [c]) hm1
      have hsub1 : ∀ x ∈ vis ++ [c], x ∈ (walkAux t fuel c (vis ++ [c])).2 :=
        fun x hx => (s1mem x).mpr (Or.inl hx)
      have hm2 : missing N (walkAux t fuel c (vis ++ [c])).2 < fuel + 1 :=
        Nat.lt_succ_of_lt (Nat.lt_of_le_of_lt (missing_mono hsub1) hm1)
      obtain ⟨ihmem, ihy, ihnodup⟩ := ih src hlt' hedge' _ hm2
      have hc1 : c ∈ (walkAux t fuel c (vis ++ [c])).1 := by
        obtain ⟨ys, hys⟩ := s1shape
        simp [hys]
      refine ⟨?_, ?_, ?_⟩
      · intro x
        simp only [walkChildren, if_neg hc]
        rw [ihmem x, s1mem x]
        simp only [List.mem_append, List.mem_singleton]
        constructor
        · rintro (((hx | rfl) | hx) | hx)
          · exact Or.inl hx
          · exact Or.inr (Or.inl hc1)
          · exact Or.inr (Or.inl hx)
          · exact Or.inr (Or.inr hx)
        · rintro (hx | (hx | hx))
          · exact Or.inl (Or.inl (Or.inl hx))
          · exact Or.inl (Or.inr hx)
          · exact Or.inr hx
      · intro y hy
        simp only [walkChildren, if_neg hc, List.mem_append] at hy
        rcases hy with hy | hy
        · rcases s1y y hy with rfl | ⟨hyv, hTG⟩
          · exact ⟨hc, Relation.TransGen.single hedgec⟩
          · exact ⟨fun hv => hyv (List.mem_append_left _ hv),
              Relation.TransGen.head hedgec hTG⟩
        · obtain ⟨hyv, hTG⟩ := ihy y hy
          exact ⟨fun hv => hyv (hsub1 y (List.mem_append_left _ hv)), hTG⟩
      · simp only [walkChildren, if_neg hc]
        refine List.Nodup.append s1nodup ihnodup ?_
        intro a ha1 ha2
        exact (ihy a ha2).1 ((s1mem a).mpr (Or.inr ha1))

/-- walk_depth_first's recursion meets its contract at every fuel level
above the measure. -/
theorem walkAux_spec {t : Conn} {N : Nat}
    (hacyc : ∀ m, ¬ Relation.TransGen (edge t) m m)
    (hb : ∀ i, ∀ c ∈ get_nodes t i, c < N) :
    ∀ (fuel : Nat) (i : Id) (vis : List Id), missing N vis < fuel →
      WalkSpec t i vis (walkAux t fuel i vis) := by
  intro fuel
  induction fuel with
  | zero => intro i vis h; exact absurd h (Nat.not_lt_zero _)
  | succ fuel ih =>
    intro i vis hfuel
    obtain ⟨hmem, hy, hnodup⟩ :=
      walkChildren_spec ih (get_nodes t i) i (hb i) (fun c hcm => hcm)
        vis hfuel
    have hiy : i ∉ (walkChildren (walkAux t fuel) (get_nodes t i) vis).1 :=
      fun hmemi => hacyc i (hy i hmemi).2
    refine ⟨?_, ?_, ?_, ?_⟩
    · intro x
      simp only [walkAux, List.mem_append, List.mem_singleton]
      rw [hmem x]
      tauto
    · intro y hyin
      simp only [walkAux, List.mem_append, List.mem_singleton] at hyin
      rcases hyin with hyin | rfl
      · exact Or.inr (hy y hyin)
      · exact Or.inl rfl
    · exact ⟨(walkChildren (walkAux t fuel) (get_nodes t i) vis).1, rfl⟩
    · simp only [walkAux]
      refine List.Nodup.append hnodup (List.nodup_singleton i) ?_
      intro a ha1 ha2
      rw [List.mem_singleton] at ha2
      exact hiy (ha2 ▸ ha1)

/-- The walk loop preserves the closure invariant and ends with every
listed child visited. -/
theorem walkChildren_closed {t : Conn} {N : Nat} {fuel : Nat}
    (hrec : ∀ (c : Id) (vis S : List Id), missing N vis < fuel →
      ClosedW t vis (c :: S) →
      ClosedW t (walkAux t fuel c vis).2 S ∧
      (∀ d ∈ get_nodes t c, d ∈ (walkAux t fuel c vis).2) ∧
      c ∈ (walkAux t fuel c vis).2) :
    ∀ (cs : List Id) (S : List Id) (i : Id), (∀ c ∈ cs, c < N) →
      ∀ vis, missing N vis < fuel + 1 → ClosedW t vis (i :: S) →
      ClosedW t (walkChildren (walkAux t fuel) cs vis).2 (i :: S) ∧
      (∀ c ∈ cs, c ∈ (walkChildren (walkAux t fuel) cs vis).2) := by
  intro cs
  induction cs with
  | nil =>
    intro S i hlt vis hfuel hcl
    exact ⟨by simpa [walkChildren] using hcl, by simp⟩
  | cons c cs ih =>
    intro S i hlt vis hfuel hcl
    have hltc : c < N := hlt c (List.mem_cons_self c cs)
    have hlt' : ∀ x ∈ cs, x < N := fun x hx => hlt x (List.mem_cons_of_mem c hx)
    by_cases hc : c ∈ vis
    · obtain ⟨ihcl, ihmem⟩ := ih S i hlt' vis hfuel hcl
      refine ⟨by simpa only [walkChildren, if_pos hc] using ihcl, ?_⟩
      intro x hx
      simp only [walkChildren, if_pos hc]
      rcases List.mem_cons.mp hx with rfl | hx'
      · exact walkChildren_mono (fun c vis => walkAux_mono fuel c vis) cs vis x hc
      · exact ihmem x hx'
    · have hm1 : missing N (vis ++ [c]) < fuel :=
        Nat.lt_of_lt_of_le (missing_lt hltc hc) (Nat.lt_succ_iff.mp hfuel)
      have hcl1 : ClosedW t (vis ++ [c]) (c :: i :: S) := by
        intro v hv hvS d hd
        rcases List.mem_append.mp hv with hv' | hv'
        · refine List.mem_append_left _ (hcl v hv' ?_ d hd)
          intro hmem
          exact hvS (List.mem_cons_of_mem c hmem)
        · rw [List.mem_singleton] at hv'
          exact absurd (hv' ▸ List.mem_cons_self c (i :: S)) hvS
      obtain ⟨hcl2, hch2, hcm2⟩ := hrec c (vis ++ [c]) (i :: S) hm1 hcl1
      have hsub1 : ∀ x ∈ vis, x ∈ (walkAux t fuel c (vis ++ [c])).2 :=
        fun x hx => walkAux_mono fuel c _ x (List.mem_append_left _ hx)
      have hm2 : missing N (walkAux t fuel c (vis ++ [c])).2 < fuel + 1 := by
        refine Nat.lt_succ_of_lt (Nat.lt_of_le_of_lt (missing_mono ?_) hm1)
        exact fun x hx => walkAux_mono fuel c _ x hx
      obtain ⟨ihcl, ihmem⟩ := ih S i hlt' _ hm2 hcl2
      refine ⟨by simpa only [walkChildren, if_neg hc] using ihcl, ?_⟩
      intro x hx
      simp only [walkChildren, if_neg hc]
      rcases List.mem_cons.mp hx with rfl | hx'
      · exact walkChildren_mono (fun c vis => walkAux_mono fuel c vis) cs _ x hcm2
      · exact ihmem x hx'

/-- One walk call establishes closure for its target: afterwards, the
target and all its children are visited. -/
theorem walkAux_closed {t : Conn} {N : Nat}
    (hb : ∀ i, ∀ c ∈ get_nodes t i, c < N) :
    ∀ (fuel : Nat) (i : Id) (vis S : List Id), missing N vis < fuel →
      ClosedW t vis (i :: S) →
      ClosedW t (walkAux t fuel i vis).2 S ∧
      (∀ d ∈ get_nodes t i, d ∈ (walkAux t fuel i vis).2) ∧
      i ∈ (walkAux t fuel i vis).2 := by
  intro fuel
  induction fuel with
  | zero => intro i vis S h; exact absurd h (Nat.not_lt_zero _)
  | succ fuel ih =>
    intro i vis S hfuel hcl
    obtain ⟨hcl1, hmem1⟩ :=
      walkChildren_closed (fun c vis S h1 h2 => ih c vis S h1 h2)
        (get_nodes t i) S i (hb i) vis hfuel hcl
    refine ⟨?_, ?_, ?_⟩
    · intro v hv hvS c hc
      simp only [walkAux, List.mem_append, List.mem_singleton] at hv ⊢
      rcases hv with hv | rfl
      · by_cases hvi : v = i
        · exact Or.inl (hmem1 c (hvi ▸ hc))
        · refine Or.inl (hcl1 v hv ?_ c hc)
          intro hmem
          rcases List.mem_cons.mp hmem with h' | h'
          · exact hvi h'
          · exact hvS h'
      · exact Or.inl (hmem1 c hc)
    · intro d hd
      simp only [walkAux, List.mem_append]
      exact Or.inl (hmem1 d hd)
    · simp [walkAux]

/-- Everything reachable from a member of a fully closed visited list is
itself a member. -/
theorem reach_mem_of_closed {t : Conn} {vis : List Id}
    (h : ClosedW t vis []) {a m : Id} (ha : a ∈ vis) (hr : Reach t a m) :
    m ∈ vis := by
  induction hr with
  | refl => exact ha
  | tail _ hedge ih => exact h _ ih (List.not_mem_nil _) _ hedge

/-- Every direct child of a node appears among its walk's yields. -/
theorem mem_walk_of_child {t : Conn} {N : Nat}
    (hacyc : ∀ m, ¬ Relation.TransGen (edge t) m m)
    (hb : ∀ i, ∀ c ∈ get_nodes t i, c < N) {i c : Id} (h : edge t i c) :
    c ∈ walk_depth_first t N i := by
  have hm : missing N ([] : List Id) < N + 1 := by
    rw [missing_nil]; exact Nat.lt_succ_self N
  obtain ⟨hcl, hch, hmem⟩ :=
    walkAux_closed hb (N + 1) i [] []
      hm (fun v hv => absurd hv (List.not_mem_nil v))
  have hc2 : c ∈ (walkAux t (N + 1) i []).2 := hch c h
  rcases ((walkAux_spec hacyc hb (N + 1) i [] hm).1 c).mp hc2 with h0 | h1
  · exact absurd h0 (List.not_mem_nil c)
  · exact h1

/-- A node appears among its own walk's yields (last, in fact). -/
theorem self_mem_walk {t : Conn} {N : Nat}
    (hacyc : ∀ m, ¬ Relation.TransGen (edge t) m m)
    (hb : ∀ i, ∀ c ∈ get_nodes t i, c < N) (i : Id) :
    i ∈ walk_depth_first t N i := by
  have hm : missing N ([] : List Id) < N + 1 := by
    rw [missing_nil]; exact Nat.lt_succ_self N
  obtain ⟨ys, hys⟩ := (walkAux_spec hacyc hb (N + 1) i [] hm).2.2.1
  unfold walk_depth_first
  simp [hys]

/-- Two distinct members force more than one element. -/
theorem one_lt_length_of_two_mem {l : List Id} {a b : Id} (ha : a ∈ l)
    (hb : b ∈ l) (hab : a ≠ b) : 1 < l.length := by
  match l with
  | [] => cases ha
  | [x] =>
    rw [List.mem_singleton] at ha hb
    exact absurd (ha.trans hb.symm) hab
  | x :: y :: l => simp [List.length_cons]

/-- A node with a child yields a walk of more than one node. -/
theorem one_lt_walk_length {t : Conn} {N : Nat}
    (hacyc : ∀ m, ¬ Relation.TransGen (edge t) m m)
    (hb : ∀ i, ∀ c ∈ get_nodes t i, c < N) {c d : Id} (hd : edge t c d) :
    1 < (walk_depth_first t N c).length := by
  have h1 : d ∈ walk_depth_first t N c := mem_walk_of_child hacyc hb hd
  have h2 : c ∈ walk_depth_first t N c := self_mem_walk hacyc hb c
  have hne : c ≠ d := fun h => hacyc d (Relation.TransGen.single (h ▸ hd))
  exact one_lt_length_of_two_mem h2 h1 hne

/-- C10: on a finite acyclic graph (identifiers below `N`),
walk_depth_first called with no visited argument yields each node
reachable from the start exactly once — also when a node is listed under
two directions or reachable along two paths — and yields the starting
node itself last. -/
theorem walk_depth_first_complete (t : Conn) (N : Nat)
    (hb : ∀ i, ∀ c ∈ get_nodes t i, c < N)
    (hacyc : ∀ m, ¬ Relation.TransGen (edge t) m m) (a : Id) :
    (walk_depth_first t N a).Nodup ∧
    (∀ m, m ∈ walk_depth_first t N a ↔ Reach t a m) ∧
    (walk_depth_first t N a).getLast? = some a := by
  have hm : missing N ([] : List Id) < N + 1 := by
    rw [missing_nil]; exact Nat.lt_succ_self N
  obtain ⟨smem, sy, sshape, snodup⟩ := walkAux_spec hacyc hb (N + 1) a [] hm
  obtain ⟨hcl, hch, hmemA⟩ :=
    walkAux_closed hb (N + 1) a [] [] hm
      (fun v hv => absurd hv (List.not_mem_nil v))
  refine ⟨snodup, ?_, ?_⟩
  · intro m
    constructor
    · intro hmw
      rcases sy m hmw with rfl | ⟨_, hTG⟩
      · exact Relation.ReflTransGen.refl
      · exact hTG.to_reflTransGen
    · intro hr
      have hmv : m ∈ (walkAux t (N + 1) a []).2 :=
        reach_mem_of_closed hcl hmemA hr
      rcases (smem m).mp hmv with h0 | h1
      · exact absurd h0 (List.not_mem_nil m)
      · exact h1
  · obtain ⟨ys, hys⟩ := sshape
    unfold walk_depth_first
    rw [hys]
    exact List.getLast?_concat ys

/-- Every edge of the two-direction example graph increases the
identifier. -/
theorem tw_edge_lt : ∀ a b : Id, edge tw a b → a < b := by
  intro a b h
  match a with
  | 0 =>
    simp only [edge, get_nodes, tw] at h
    simp at h
    rcases h with rfl | rfl
    · exact Nat.zero_lt_one
    · exact Nat.zero_lt_two
  | n + 1 => simp [edge, get_nodes, tw] at h

/-- Strict reachability in the example graph increases the identifier. -/
theorem tw_transGen_lt {a b : Id} (h : Relation.TransGen (edge tw) a b) :
    a < b := by
  induction h with
  | single h1 => exact tw_edge_lt _ _ h1
  | tail h1 h2 ih => exact Nat.lt_trans ih (tw_edge_lt _ _ h2)

/-- The example graph is acyclic. -/
theorem tw_acyc : ∀ m, ¬ Relation.TransGen (edge tw) m m :=
  fun m h => lt_irrefl m (tw_transGen_lt h)

/-- All identifiers of the example graph lie below 3. -/
theorem tw_bound : ∀ i, ∀ c ∈ get_nodes tw i, c < 3 := by
  intro i
  match i with
  | 0 => decide
  | n + 1 => simp [get_nodes, tw]

/-- Witness for C10: in the graph where node 0 lists child 1 under two
directions and child 2 under the second, the walk yields each reachable
node once and ends on 0. -/
theorem walk_depth_first_complete_witness :
    (walk_depth_first tw 3 0).Nodup ∧
    (∀ m, m ∈ walk_depth_first tw 3 0 ↔ Reach tw 0 m) ∧
    (walk_depth_first tw 3 0).getLast? = some 0 :=
  walk_depth_first_complete tw 3 tw_bound tw_acyc 0

/-! The layout engine's lemmas. -/

/-- The walk loop of layout never surfaces the not-connected signal:
the failed direction lookup is caught and the node skipped; only the
recursive calls' own errors propagate. -/
theorem layoutWalk_no_notConnected {t : Conn} {N : Nat}
    {rec : Id → LState → List Id → Except LErr (LState × List Id)}
    (hrec : ∀ i st vis, rec i st vis ≠ .error .notConnected)
    (parent : Id) :
    ∀ (ws : List Id) (st : LState) (vis : List Id)
      (conns : List (Dir × Id)),
      layoutWalk t N rec parent ws st vis conns ≠ .error .notConnected := by
  intro ws
  induction ws with
  | nil => intro st vis conns h; simp [layoutWalk] at h
  | cons node rest ih =>
    intro st vis conns h
    cases hg : get_direction_to_child t parent node with
    | error e =>
      simp only [layoutWalk, hg] at h
      exact ih _ _ _ h
    | ok d =>
      simp only [layoutWalk, hg] at h
      by_cases hlen : 1 < (walk_depth_first t N node).length
      · rw [if_pos hlen] at h
        cases hr : rec node st vis with
        | error e =>
          rw [hr] at h
          simp only at h
          injection h with h'
          exact hrec node st vis (h' ▸ hr)
        | ok r =>
          rw [hr] at h
          exact ih _ _ _ h
      · rw [if_neg hlen] at h
        exact ih _ _ _ h

/-- layout with any fuel never returns the not-connected signal. -/
theorem layoutAux_no_notConnected {t : Conn} {N : Nat} {sz : Id → ℚ × ℚ}
    {ms : ℚ} :
    ∀ (fuel : Nat) (parent : Id) (st : LState) (vis : List Id),
      layoutAux t N sz ms fuel parent st vis ≠ .error .notConnected := by
  intro fuel
  induction fuel with
  | zero => intro parent st vis h; simp [layoutAux] at h
  | succ fuel ih =>
    intro parent st vis h
    by_cases hp : parent ∈ vis
    · rw [layoutAux, if_pos hp] at h
      cases h
    · rw [layoutAux, if_neg hp] at h
      cases hw : layoutWalk t N (layoutAux t N sz ms fuel) parent
          (walk_depth_first t N parent) st (vis ++ [parent]) [] with
      | error e =>
        rw [hw] at h
        simp only at h
        injection h with h'
        exact layoutWalk_no_notConnected ih parent _ _ _ _ (h' ▸ hw)
      | ok r =>
        rw [hw] at h
        cases h

/-- addShape folds leave the positioned flags untouched. -/
theorem foldl_addShape_positioned (l : List Id) (g : Id) :
    ∀ st : LState,
      (l.foldl (fun s j => s.addShape g j) st).positioned = st.positioned := by
  induction l with
  | nil => intro st; rfl
  | cons a l ih => intro st; exact ih _

/-- One placement step sets positioned exactly at the parent, leaving
every other flag unchanged. -/
theorem placeStep_positioned (t : Conn) (N : Nat) (sz : Id → ℚ × ℚ)
    (ms : ℚ) (parent : Id) (st : LState) (dn : Dir × Id) (j : Id) :
    (placeStep t N sz ms parent st dn).positioned j =
      if j = parent then true else st.positioned j := by
  simp only [placeStep]
  rw [LState.addShape, foldl_addShape_positioned, foldl_addShape_positioned]
  by_cases hpp : st.positioned parent
  · rw [if_pos hpp]
    have hA : ∀ stX : LState, (stX.setGroupPos dn.2
        (calculate_position (get_bounding_rect N sz st parent)
          (get_bounding_rect N sz st dn.2) dn.1 ms false)).positioned =
        stX.positioned := fun stX => rfl
    by_cases his : st.inScene dn.2
    · rw [if_pos his, hA]
      by_cases hj : j = parent
      · rw [if_pos hj, hj]; exact hpp
      · rw [if_neg hj]
    · rw [if_neg his, hA]
      show st.positioned j = _
      by_cases hj : j = parent
      · rw [if_pos hj, hj]; exact hpp
      · rw [if_neg hj]
  · rw [if_neg hpp]
    show Function.update
      (LState.setGroupPos _ parent _).positioned parent true j = _
    by_cases hj : j = parent
    · rw [if_pos hj, hj, Function.update_same]
    · rw [if_neg hj, Function.update_noteq hj]
      by_cases his : st.inScene parent
      · rw [if_pos his]; rfl
      · rw [if_neg his]; rfl

/-- The placement loop sets positioned exactly at the parent, when it
has at least one entry. -/
theorem layoutPlace_positioned (t : Conn) (N : Nat) (sz : Id → ℚ × ℚ)
    (ms : ℚ) (parent : Id) :
    ∀ (conns : List (Dir × Id)) (st : LState) (j : Id),
      (layoutPlace t N sz ms parent conns st).positioned j =
        if j = parent ∧ conns ≠ [] then true else st.positioned j := by
  intro conns
  induction conns with
  | nil => intro st j; simp [layoutPlace]
  | cons dn rest ih =>
    intro st j
    simp only [layoutPlace, List.foldl_cons] at ih ⊢
    rw [ih, placeStep_positioned]
    by_cases hj : j = parent
    · by_cases hr : rest = [] <;> simp [hj, hr]
    · simp [hj]

/-- Every entry of an insertConn result is the new pair or an old one. -/
theorem mem_insertConn {conns : List (Dir × Id)} {d : Dir} {i : Id}
    {p : Dir × Id} (h : p ∈ insertConn conns d i) :
    p = (d, i) ∨ p ∈ conns := by
  induction conns with
  | nil => simpa [insertConn] using h
  | cons q rest ih =>
    obtain ⟨d', i'⟩ := q
    by_cases hd : d' = d
    · rw [insertConn, if_pos hd] at h
      rcases List.mem_cons.mp h with rfl | h'
      · exact Or.inl rfl
      · exact Or.inr (List.mem_cons_of_mem _ h')
    · rw [insertConn, if_neg hd] at h
      rcases List.mem_cons.mp h with rfl | h'
      · exact Or.inr (List.mem_cons_self _ _)
      · rcases ih h' with h'' | h''
        · exact Or.inl h''
        · exact Or.inr (List.mem_cons_of_mem _ h'')

/-- insertConn never returns the empty map. -/
theorem insertConn_ne_nil (conns : List (Dir × Id)) (d : Dir) (i : Id) :
    insertConn conns d i ≠ [] := by
  cases conns with
  | nil => simp [insertConn]
  | cons q rest =>
    obtain ⟨d', i'⟩ := q
    by_cases hd : d' = d <;> simp [insertConn, hd]

/-- The traversal pass of layout meets its contract: it succeeds,
re-establishes the closure and placement invariants, records only direct
children in the connection map, leaves every direct child rooting a
larger subtree visited, makes the connection map nonempty as soon as one
walk node is a direct child, only ever sets positioned flags, and leaves
childless nodes' flags unchanged. -/
theorem layoutWalk_main {t : Conn} {N : Nat} {sz : Id → ℚ × ℚ} {ms : ℚ}
    (fuel : Nat) (S : List Id) (parent : Id)
    (hrec : ∀ (c : Id) (st : LState) (vis : List Id),
      missing N vis < fuel → c < N → c ∉ vis →
      ClosedL t vis (c :: parent :: S) → ProcL t st vis (c :: parent :: S) →
      LayoutOk t c (layoutAux t N sz ms fuel c st vis) st vis (parent :: S))
    (hb : ∀ i, ∀ c ∈ get_nodes t i, c < N) :
    ∀ (ws : List Id) (st : LState) (vis : List Id)
      (conns : List (Dir × Id)),
      missing N vis < fuel →
      ClosedL t vis (parent :: S) → ProcL t st vis (parent :: S) →
      (∀ p ∈ conns, edge t parent p.2) →
      ∃ st' vis' conns',
        layoutWalk t N (layoutAux t N sz ms fuel) parent ws st vis conns =
          .ok (st', vis', conns') ∧
        (∀ x ∈ vis, x ∈ vis') ∧
        ClosedL t vis' (parent :: S) ∧ ProcL t st' vis' (parent :: S) ∧
        (∀ p ∈ conns', edge t parent p.2) ∧
        (conns ≠ [] → conns' ≠ []) ∧
        (∀ c ∈ ws, ∀ d, get_direction_to_child t parent c = .ok d →
          (1 < (walk_depth_first t N c).length → c ∈ vis') ∧ conns' ≠ []) ∧
        (∀ j, st.positioned j = true → st'.positioned j = true) ∧
        (∀ j, get_nodes t j = [] → st'.positioned j = st.positioned j) := by
  intro ws
  induction ws with
  | nil =>
    intro st vis conns hm hcl hproc hconns
    exact ⟨st, vis, conns, rfl, fun x hx => hx, hcl, hproc, hconns,
      fun h => h, fun c hc => absurd hc (List.not_mem_nil c),
      fun j h => h, fun j _ => rfl⟩
  | cons node rest ih =>
    intro st vis conns hm hcl hproc hconns
    cases hg : get_direction_to_child t parent node with
    | error e =>
      obtain ⟨st', vis', conns', hrun, hmono, hcl', hproc', hconns',
        hne, hws, hposmono, hleaf⟩ := ih st vis conns hm hcl hproc hconns
      refine ⟨st', vis', conns', ?_, hmono, hcl', hproc', hconns', hne,
        ?_, hposmono, hleaf⟩
      · simp only [layoutWalk, hg]
        exact hrun
      · intro c hc d hd
        rcases List.mem_cons.mp hc with rfl | hc'
        · rw [hg] at hd
          cases hd
        · exact hws c hc' d hd
    | ok d =>
      have hedge : edge t parent node := child_of_gdtc_ok hg
      have hnodeN : node < N := hb parent node hedge
      have hconns2 : ∀ p ∈ insertConn conns d node, edge t parent p.2 := by
        intro p hp
        rcases mem_insertConn hp with rfl | hp'
        · exact hedge
        · exact hconns p hp'
      by_cases hlen : 1 < (walk_depth_first t N node).length
      · by_cases hnv : node ∈ vis
        · have hfpos : fuel ≠ 0 := by
            intro h0
            rw [h0] at hm
            exact absurd hm (Nat.not_lt_zero _)
          have hnoop : layoutAux t N sz ms fuel node st vis = .ok (st, vis) := by
            obtain ⟨k, rfl⟩ := Nat.exists_eq_succ_of_ne_zero hfpos
            rw [layoutAux, if_pos hnv]
          obtain ⟨st', vis', conns', hrun, hmono, hcl', hproc', hconns',
            hne, hws, hposmono, hleaf⟩ :=
            ih st vis (insertConn conns d node) hm hcl hproc hconns2
          refine ⟨st', vis', conns', ?_, hmono, hcl', hproc', hconns',
            ?_, ?_, hposmono, hleaf⟩
          · simp only [layoutWalk, hg, if_pos hlen, hnoop]
            exact hrun
          · intro _
            exact hne (insertConn_ne_nil conns d node)
          · intro c hc d' hd'
            rcases List.mem_cons.mp hc with rfl | hc'
            · exact ⟨fun _ => hmono c hnv,
                hne (insertConn_ne_nil conns d c)⟩
            · exact hws c hc' d' hd'
        · have hclC : ClosedL t vis (node :: parent :: S) := by
            intro v hv hvs c hc hcint
            exact hcl v hv (fun hm' => hvs (List.mem_cons_of_mem _ hm'))
              c hc hcint
          have hprocC : ProcL t st vis (node :: parent :: S) := by
            intro v hv hvs hvint
            exact hproc v hv (fun hm' => hvs (List.mem_cons_of_mem _ hm'))
              hvint
          obtain ⟨st1, vis1, hrec_run, hmono1, hin1, hcl1, hproc1,
            hposmono1, hleaf1⟩ := hrec node st vis hm hnodeN hnv hclC hprocC
          have hm1 : missing N vis1 < fuel :=
            Nat.lt_of_le_of_lt (missing_mono hmono1) hm
          obtain ⟨st', vis', conns', hrun, hmono, hcl', hproc', hconns',
            hne, hws, hposmono, hleaf⟩ :=
            ih st1 vis1 (insertConn conns d node) hm1 hcl1 hproc1 hconns2
          refine ⟨st', vis', conns', ?_,
            fun x hx => hmono x (hmono1 x hx), hcl', hproc', hconns',
            ?_, ?_, fun j hj => hposmono j (hposmono1 j hj),
            fun j hj => (hleaf j hj).trans (hleaf1 j hj)⟩
          · simp only [layoutWalk, hg, if_pos hlen, hrec_run]
            exact hrun
          · intro _
            exact hne (insertConn_ne_nil conns d node)
          · intro c hc d' hd'
            rcases List.mem_cons.mp hc with rfl | hc'
            · exact ⟨fun _ => hmono c hin1,
                hne (insertConn_ne_nil conns d c)⟩
            · exact hws c hc' d' hd'
      · obtain ⟨st', vis', conns', hrun, hmono, hcl', hproc', hconns',
          hne, hws, hposmono, hleaf⟩ :=
          ih st vis (insertConn conns d node) hm hcl hproc hconns2
        refine ⟨st', vis', conns', ?_, hmono, hcl', hproc', hconns',
          ?_, ?_, hposmono, hleaf⟩
        · simp only [layoutWalk, hg, if_neg hlen]
          exact hrun
        · intro _
          exact hne (insertConn_ne_nil conns d node)
        · intro c hc d' hd'
          rcases List.mem_cons.mp hc with rfl | hc'
          · refine ⟨fun hlen' => ?_, hne (insertConn_ne_nil conns d c)⟩
            rw [hd'] at hg
            injection hg with hg'
            exact absurd hlen' hlen
          · exact hws c hc' d' hd'

/-- A layout call on a fresh target meets its contract: it succeeds,
visits the target, visits every internal child of every node it finished,
marks every finished node with children as positioned, and leaves
childless nodes' flags unchanged. -/
theorem layoutAux_main {t : Conn} {N : Nat} {sz : Id → ℚ × ℚ} {ms : ℚ}
    (hb : ∀ i, ∀ c ∈ get_nodes t i, c < N)
    (hacyc : ∀ m, ¬ Relation.TransGen (edge t) m m) :
    ∀ (fuel : Nat) (parent : Id) (st : LState) (vis S : List Id),
      missing N vis < fuel → parent < N → parent ∉ vis →
      ClosedL t vis (parent :: S) → ProcL t st vis (parent :: S) →
      LayoutOk t parent (layoutAux t N sz ms fuel parent st vis) st vis S := by
  intro fuel
  induction fuel with
  | zero =>
    intro parent st vis S h
    exact absurd h (Nat.not_lt_zero _)
  | succ fuel ihf =>
    intro parent st vis S hm hpN hpv hcl hproc
    have hmvp : missing N (vis ++ [parent]) < fuel :=
      Nat.lt_of_lt_of_le (missing_lt hpN hpv) (Nat.lt_succ_iff.mp hm)
    have hclp : ClosedL t (vis ++ [parent]) (parent :: S) := by
      intro v hv hvS c hc hcint
      rcases List.mem_append.mp hv with hv' | hv'
      · exact List.mem_append_left _ (hcl v hv' hvS c hc hcint)
      · rw [List.mem_singleton] at hv'
        exact absurd (hv' ▸ List.mem_cons_self parent S) hvS
    have hprocp : ProcL t st (vis ++ [parent]) (parent :: S) := by
      intro v hv hvS hvint
      rcases List.mem_append.mp hv with hv' | hv'
      · exact hproc v hv' hvS hvint
      · rw [List.mem_singleton] at hv'
        exact absurd (hv' ▸ List.mem_cons_self parent S) hvS
    obtain ⟨st1, vis1, conns1, hrun, hmono, hcl1, hproc1, hconns1, _,
      hws, hposmono, hleaf⟩ :=
      layoutWalk_main fuel S parent
        (fun c st' vis' h1 h2 h3 h4 h5 => ihf c st' vis' (parent :: S) h1 h2 h3 h4 h5)
        hb (walk_depth_first t N parent) st (vis ++ [parent]) []
        hmvp hclp hprocp (fun p hp => absurd hp (List.not_mem_nil p))
    refine ⟨layoutPlace t N sz ms parent conns1 st1, vis1, ?_, ?_, ?_,
      ?_, ?_, ?_, ?_⟩
    · rw [layoutAux, if_neg hpv, hrun]
    · exact fun x hx => hmono x (List.mem_append_left _ hx)
    · exact hmono parent (List.mem_append_right _ (List.mem_singleton.mpr rfl))
    · intro v hv hvS c hc hcint
      by_cases hvp : v = parent
      · rw [hvp] at hc
        have hcw : c ∈ walk_depth_first t N parent :=
          mem_walk_of_child hacyc hb hc
        obtain ⟨dd, hdd⟩ := gdtc_ok_of_child hc
        obtain ⟨d2, hd2⟩ := List.exists_mem_of_ne_nil _ hcint
        have hlen := one_lt_walk_length hacyc hb hd2
        exact (hws c hcw dd hdd).1 hlen
      · exact hcl1 v hv
          (fun hmem => (List.mem_cons.mp hmem).elim hvp hvS) c hc hcint
    · intro v hv hvS hvint
      rw [layoutPlace_positioned]
      by_cases hvp : v = parent
      · rw [hvp] at hvint
        obtain ⟨c, hc⟩ := List.exists_mem_of_ne_nil _ hvint
        have hcw : c ∈ walk_depth_first t N parent :=
          mem_walk_of_child hacyc hb hc
        obtain ⟨dd, hdd⟩ := gdtc_ok_of_child hc
        have hconnsne := (hws c hcw dd hdd).2
        simp [hvp, hconnsne]
      · have h1 := hproc1 v hv
          (fun hmem => (List.mem_cons.mp hmem).elim hvp hvS) hvint
        simp [hvp, h1]
    · intro j hj
      rw [layoutPlace_positioned]
      split
      · rfl
      · exact hposmono j hj
    · intro j hj
      rw [layoutPlace_positioned]
      have hstep := hleaf j hj
      by_cases hc1 : conns1 = []
      · simp [hc1, hstep]
      · obtain ⟨p, hp⟩ := List.exists_mem_of_ne_nil _ hc1
        have hpint : get_nodes t parent ≠ [] := by
          intro hempty
          have := hconns1 p hp
          rw [edge, hempty] at this
          exact absurd this (List.not_mem_nil _)
        have hjp : j ≠ parent := by
          intro h
          rw [h] at hj
          exact hpint hj
        simp [hjp, hstep]

/-- Every edge of the scenario tree increases the identifier. -/
theorem t3_edge_lt : ∀ a b : Id, edge t3 a b → a < b := by
  intro a b h
  match a with
  | 0 =>
    simp [edge, get_nodes, t3] at h
    exact h ▸ Nat.zero_lt_one
  | 1 =>
    simp [edge, get_nodes, t3] at h
    exact h ▸ Nat.one_lt_two
  | n + 2 => simp [edge, get_nodes, t3] at h

/-- Strict reachability in the scenario tree increases the identifier. -/
theorem t3_transGen_lt {a b : Id} (h : Relation.TransGen (edge t3) a b) :
    a < b := by
  induction h with
  | single h1 => exact t3_edge_lt _ _ h1
  | tail h1 h2 ih => exact Nat.lt_trans ih (t3_edge_lt _ _ h2)

/-- The scenario tree is acyclic. -/
theorem t3_acyc : ∀ m, ¬ Relation.TransGen (edge t3) m m :=
  fun m h => lt_irrefl m (t3_transGen_lt h)

/-- All identifiers of the scenario tree lie below 3. -/
theorem t3_bound : ∀ i, ∀ c ∈ get_nodes t3 i, c < 3 := by
  intro i
  match i with
  | 0 => decide
  | 1 => decide
  | n + 2 => simp [get_nodes, t3]

/-- C3 amended: after a successful top-level layout call on the root of
a tree built by build_tree (fresh state, every flag false), every node
with at least one child has positioned == true — but childless (leaf)
nodes keep positioned == false: the code never sets the flag on a node it
places as a child. -/
theorem layout_positions_internal_nodes (t : Conn) (N : Nat)
    (sz : Id → ℚ × ℚ) (ms : ℚ) (root : Id)
    (hb : ∀ i, ∀ c ∈ get_nodes t i, c < N)
    (hacyc : ∀ m, ¬ Relation.TransGen (edge t) m m)
    (hroot : root < N) :
    ∃ st' vis', layout t N sz root root ms st0 [] = .ok (st', vis') ∧
      (∀ m, Reach t root m → get_nodes t m ≠ [] →
        st'.positioned m = true) ∧
      (∀ m, get_nodes t m = [] → st'.positioned m = false) := by
  have hm : missing N ([] : List Id) < N + 1 := by
    rw [missing_nil]; exact Nat.lt_succ_self N
  obtain ⟨st', vis', hrun, hmono, hrootmem, hcl, hproc, hposmono, hleaf⟩ :=
    layoutAux_main hb hacyc (N + 1) root st0 [] [] hm hroot
      (List.not_mem_nil root) (fun v hv => absurd hv (List.not_mem_nil v))
      (fun v hv => absurd hv (List.not_mem_nil v))
  refine ⟨st', vis', hrun, ?_, ?_⟩
  · have key : ∀ m, Reach t root m → get_nodes t m ≠ [] → m ∈ vis' := by
      intro m hr
      induction hr with
      | refl => intro _; exact hrootmem
      | @tail b c hrb he ih =>
        intro hcint
        have hbint : get_nodes t b ≠ [] := by
          intro hnil
          rw [edge, hnil] at he
          exact absurd he (List.not_mem_nil _)
        exact hcl b (ih hbint) (List.not_mem_nil _) c he hcint
    exact fun m hreach hmint =>
      hproc m (key m hreach hmint) (List.not_mem_nil m) hmint
  · exact fun m hm' => hleaf m hm'

/-- Witness for C3's amended claim at the scenario tree A →e B →s C with
min_spacing 30. -/
theorem layout_positions_internal_nodes_witness :
    ∃ st' vis', layout t3 3 sz3 0 0 30 st0 [] = .ok (st', vis') ∧
      (∀ m, Reach t3 0 m → get_nodes t3 m ≠ [] →
        st'.positioned m = true) ∧
      (∀ m, get_nodes t3 m = [] → st'.positioned m = false) :=
  layout_positions_internal_nodes t3 3 sz3 30 0 t3_bound t3_acyc
    (by decide)

/-- C8: layout never propagates the not-connected signal of
get_direction_to_child to its caller — a walked node that is not a
direct child of the current parent in any direction is skipped, and the
absence of an edge in a direction never aborts the traversal. -/
theorem layout_never_propagates_not_connected (t : Conn) (N : Nat)
    (sz : Id → ℚ × ℚ) (root parent : Id) (ms : ℚ) (st : LState)
    (visited : List Id) :
    layout t N sz root parent ms st visited ≠ .error .notConnected :=
  layoutAux_no_notConnected (N + 1) parent st visited

/-! The tree builder's lemmas. -/

/-- The inner rewiring fold raises nothing when every declared child id
has a shape, and then equals the pure fold. -/
theorem foldlM_update_ok {shapes : List Id} {i : Id} :
    ∀ (l : List (Dir × Id)), (∀ dc ∈ l, dc.2 ∈ shapes) →
    ∀ pm : Id → Option Id,
      (l.foldlM (fun (pm : Id → Option Id) dc =>
        if dc.2 ∈ shapes then pure (Function.update pm dc.2 (some i))
        else Except.error BuildErr.keyError) pm) =
      .ok (l.foldl (fun (pm : Id → Option Id) dc =>
        Function.update pm dc.2 (some i)) pm) := by
  intro l
  induction l with
  | nil => intro _ pm; rfl
  | cons dc l ih =>
    intro hl pm
    have hdc := hl dc (List.mem_cons_self dc l)
    rw [List.foldlM_cons, if_pos hdc]
    have hbind : ∀ (x : Id → Option Id)
        (f : (Id → Option Id) → Except BuildErr (Id → Option Id)),
        (pure x : Except BuildErr (Id → Option Id)) >>= f = f x := fun x f => rfl
    rw [hbind]
    rw [ih (fun x hx => hl x (List.mem_cons_of_mem _ hx))]
    rfl

/-- The outer rewiring fold, over any list of parents, raises nothing
when every declared child id has a shape, and equals the pure fold. -/
theorem foldlM_shapes_ok {shapes : List Id} {decl : Id → List (Dir × Id)} :
    ∀ (l : List Id), (∀ i ∈ l, ∀ dc ∈ decl i, dc.2 ∈ shapes) →
    ∀ pm : Id → Option Id,
      (l.foldlM (fun (pm : Id → Option Id) i =>
        (decl i).foldlM (fun (pm : Id → Option Id) dc =>
          if dc.2 ∈ shapes then pure (Function.update pm dc.2 (some i))
          else Except.error BuildErr.keyError) pm) pm) =
      .ok (l.foldl (fun (pm : Id → Option Id) i =>
        (decl i).foldl (fun (pm : Id → Option Id) dc =>
          Function.update pm dc.2 (some i)) pm) pm) := by
  intro l
  induction l with
  | nil => intro _ pm; rfl
  | cons a l ih =>
    intro hl pm
    rw [List.foldlM_cons,
      foldlM_update_ok (decl a) (hl a (List.mem_cons_self a l)) pm]
    have hbind : ∀ (x : Id → Option Id)
        (f : (Id → Option Id) → Except BuildErr (Id → Option Id)),
        (Except.ok x : Except BuildErr (Id → Option Id)) >>= f = f x :=
      fun x f => rfl
    rw [hbind]
    exact ih (fun x hx => hl x (List.mem_cons_of_mem _ hx)) _

/-- apply_connections raises nothing when every declared child id has a
shape, and then computes exactly parent_map. -/
theorem apply_connections_eq_parent_map (shapes : List Id)
    (decl : Id → List (Dir × Id))
    (hd : ∀ i ∈ shapes, ∀ dc ∈ decl i, dc.2 ∈ shapes) :
    apply_connections shapes decl = .ok (parent_map shapes decl) :=
  foldlM_shapes_ok shapes hd _

/-- C2: on a declaration whose child ids all have shapes, build_tree
raises exactly when the number of parent-less nodes left after applying
every (parent, direction, child) triple is 0 or at least 2; with exactly
one, it succeeds, returns that unique parent-less node as the root, and
every non-root node has exactly one parent assigned. -/
theorem build_tree_root_spec (shapes : List Id)
    (decl : Id → List (Dir × Id))
    (hd : ∀ i ∈ shapes, ∀ dc ∈ decl i, dc.2 ∈ shapes) :
    ((∃ e, build_tree shapes decl = .error e) ↔
      ((parentless shapes decl).length = 0 ∨
        2 ≤ (parentless shapes decl).length)) ∧
    (∀ r pm, build_tree shapes decl = .ok (r, pm) →
      pm = parent_map shapes decl ∧ r ∈ shapes ∧ pm r = none ∧
      (∀ j ∈ shapes, (pm j = none ↔ j = r))) := by
  have hbt : build_tree shapes decl =
      match shapes.filter
          (fun i => (parent_map shapes decl i).isNone) with
      | [r] => .ok (r, parent_map shapes decl)
      | _ => .error .malformedTree := by
    show Except.bind (apply_connections shapes decl) _ = _
    rw [apply_connections_eq_parent_map shapes decl hd]
    rfl
  have hpl : parentless shapes decl =
      shapes.filter (fun i => (parent_map shapes decl i).isNone) := rfl
  cases hfl : shapes.filter (fun i => (parent_map shapes decl i).isNone) with
  | nil =>
    rw [hfl] at hbt
    refine ⟨⟨fun _ => ?_, fun _ => ⟨.malformedTree, hbt⟩⟩, ?_⟩
    · rw [hpl, hfl]
      exact Or.inl rfl
    · intro r pm h
      rw [hbt] at h
      cases h
  | cons r rest =>
    cases rest with
    | nil =>
      rw [hfl] at hbt
      refine ⟨⟨fun ⟨e, he⟩ => ?_, fun habs => ?_⟩, ?_⟩
      · rw [hbt] at he
        cases he
      · rw [hpl, hfl] at habs
        rcases habs with h0 | h2
        · cases h0
        · simp at h2
      · intro r' pm h
        rw [hbt] at h
        injection h with h'
        injection h' with hr hpm
        subst hr
        subst hpm
        have hrmem : r ∈ shapes.filter
            (fun i => (parent_map shapes decl i).isNone) := by
          rw [hfl]
          exact List.mem_singleton.mpr rfl
        have hnone : parent_map shapes decl r = none := by
          have := List.of_mem_filter hrmem
          simpa [Option.isNone_iff_eq_none] using this
        refine ⟨rfl, List.mem_of_mem_filter hrmem, hnone, ?_⟩
        intro j hj
        constructor
        · intro hjnone
          have hjf : j ∈ shapes.filter
              (fun i => (parent_map shapes decl i).isNone) :=
            List.mem_filter.mpr ⟨hj, by simp [hjnone]⟩
          rw [hfl] at hjf
          exact List.mem_singleton.mp hjf
        · intro hjr
          subst hjr
          exact hnone
    | cons b rest2 =>
      rw [hfl] at hbt
      refine ⟨⟨fun _ => ?_, fun _ => ⟨.malformedTree, hbt⟩⟩, ?_⟩
      · rw [hpl, hfl]
        refine Or.inr ?_
        simp [List.length_cons]
      · intro r' pm h
        rw [hbt] at h
        cases h

/-- Witness for C2 at the scenario declaration 0 →e 1 →s 2 over shapes
0, 1, 2. -/
theorem build_tree_root_spec_witness :
    ((∃ e, build_tree [0, 1, 2] decl3 = .error e) ↔
      ((parentless [0, 1, 2] decl3).length = 0 ∨
        2 ≤ (parentless [0, 1, 2] decl3).length)) ∧
    (∀ r pm, build_tree [0, 1, 2] decl3 = .ok (r, pm) →
      pm = parent_map [0, 1, 2] decl3 ∧ r ∈ [0, 1, 2] ∧ pm r = none ∧
      (∀ j ∈ [0, 1, 2], (pm j = none ↔ j = r))) :=
  build_tree_root_spec [0, 1, 2] decl3 (by decide)

/-! The group wrapper's geometry. -/

/-- The left edge of a union. -/
theorem Rect.union_x (a b : Rect) : (a.union b).x = min a.x b.x := rfl

/-- The top edge of a union. -/
theorem Rect.union_y (a b : Rect) : (a.union b).y = min a.y b.y := rfl

/-- The right edge of a union. -/
theorem Rect.union_right (a b : Rect) :
    (a.union b).x + (a.union b).w = max (a.x + a.w) (b.x + b.w) := by
  simp only [Rect.union]
  ring

/-- The bottom edge of a union. -/
theorem Rect.union_bottom (a b : Rect) :
    (a.union b).y + (a.union b).h = max (a.y + a.h) (b.y + b.h) := by
  simp only [Rect.union]
  ring

/-- Union of rectangles is commutative. -/
theorem Rect.union_comm (a b : Rect) : a.union b = b.union a := by
  simp only [Rect.union]
  rw [min_comm a.x b.x, min_comm a.y b.y,
    max_comm (a.x + a.w) (b.x + b.w), max_comm (a.y + a.h) (b.y + b.h)]

/-- Union of rectangles is associative. -/
theorem Rect.union_assoc (a b c : Rect) :
    (a.union b).union c = a.union (b.union c) := by
  have h1 := Rect.union_right a b
  have h2 := Rect.union_right b c
  have h3 := Rect.union_bottom a b
  have h4 := Rect.union_bottom b c
  ext
  · exact min_assoc a.x b.x c.x
  · exact min_assoc a.y b.y c.y
  · show max ((a.union b).x + (a.union b).w) (c.x + c.w) -
        min (a.union b).x c.x =
      max (a.x + a.w) ((b.union c).x + (b.union c).w) -
        min a.x (b.union c).x
    rw [h1, h2, Rect.union_x, Rect.union_x, max_assoc, min_assoc]
  · show max ((a.union b).y + (a.union b).h) (c.y + c.h) -
        min (a.union b).y c.y =
      max (a.y + a.h) ((b.union c).y + (b.union c).h) -
        min a.y (b.union c).y
    rw [h3, h4, Rect.union_y, Rect.union_y, max_assoc, min_assoc]

/-- Union of rectangles is right-commutative. -/
theorem Rect.union_right_comm (u x y : Rect) :
    (u.union x).union y = (u.union y).union x := by
  rw [Rect.union_assoc, Rect.union_comm x y, ← Rect.union_assoc]

/-- The accumulator step of childrenBoundingRect is right-commutative. -/
theorem unionStep_right_comm (z : Option Rect) (x y : Rect) :
    unionStep (unionStep z x) y = unionStep (unionStep z y) x := by
  cases z with
  | none =>
    simp only [unionStep]
    rw [Rect.union_comm]
  | some u =>
    simp only [unionStep]
    rw [Rect.union_right_comm]

/-- childrenBoundingRect does not depend on the order of the members. -/
theorem childrenBoundingRect_perm {l1 l2 : List Rect} (h : l1.Perm l2) :
    childrenBoundingRect l1 = childrenBoundingRect l2 := by
  unfold childrenBoundingRect
  rw [List.Perm.foldl_eq' h (fun x _ y _ z => unionStep_right_comm z x y)
    none]

/-- On a nonempty member list the accumulator fold is the plain union
fold. -/
theorem foldl_unionStep_some (rs : List Rect) :
    ∀ u : Rect, rs.foldl unionStep (some u) = some (rs.foldl Rect.union u) := by
  induction rs with
  | nil => intro u; rfl
  | cons s rs ih =>
    intro u
    exact ih (u.union s)

/-- The left edge of a union fold. -/
theorem foldl_union_x (rs : List Rect) :
    ∀ u : Rect, (rs.foldl Rect.union u).x = (rs.map Rect.x).foldl min u.x := by
  induction rs with
  | nil => intro u; rfl
  | cons s rs ih =>
    intro u
    simp only [List.foldl_cons, List.map_cons]
    rw [ih (u.union s), Rect.union_x]

/-- The top edge of a union fold. -/
theorem foldl_union_y (rs : List Rect) :
    ∀ u : Rect, (rs.foldl Rect.union u).y = (rs.map Rect.y).foldl min u.y := by
  induction rs with
  | nil => intro u; rfl
  | cons s rs ih =>
    intro u
    simp only [List.foldl_cons, List.map_cons]
    rw [ih (u.union s), Rect.union_y]

/-- The right edge of a union fold. -/
theorem foldl_union_right (rs : List Rect) :
    ∀ u : Rect, (rs.foldl Rect.union u).x + (rs.foldl Rect.union u).w =
      (rs.map (fun s => s.x + s.w)).foldl max (u.x + u.w) := by
  induction rs with
  | nil => intro u; rfl
  | cons s rs ih =>
    intro u
    simp only [List.foldl_cons, List.map_cons]
    rw [ih (u.union s), Rect.union_right]

/-- The bottom edge of a union fold. -/
theorem foldl_union_bottom (rs : List Rect) :
    ∀ u : Rect, (rs.foldl Rect.union u).y + (rs.foldl Rect.union u).h =
      (rs.map (fun s => s.y + s.h)).foldl max (u.y + u.h) := by
  induction rs with
  | nil => intro u; rfl
  | cons s rs ih =>
    intro u
    simp only [List.foldl_cons, List.map_cons]
    rw [ih (u.union s), Rect.union_bottom]

/-- C9: the box _GroupWrapper fixes at construction equals the union of
its member boxes expanded by exactly 5 units on each of the four sides,
and the box is the same regardless of the order the members were added. -/
theorem groupWrapper_box_spec (r : Rect) (rs : List Rect)
    (l2 : List Rect) (hperm : (r :: rs).Perm l2) :
    groupWrapperRect (r :: rs) = spec_group_box r rs ∧
    groupWrapperRect l2 = groupWrapperRect (r :: rs) := by
  constructor
  · have hcbr : childrenBoundingRect (r :: rs) = rs.foldl Rect.union r := by
      unfold childrenBoundingRect
      rw [List.foldl_cons]
      show (rs.foldl unionStep (some r)).getD _ = _
      rw [foldl_unionStep_some]
      rfl
    have hx := foldl_union_x rs r
    have hy := foldl_union_y rs r
    have hr := foldl_union_right rs r
    have hb := foldl_union_bottom rs r
    unfold groupWrapperRect spec_group_box Rect.marginsAdded
    rw [hcbr]
    ext
    · show (rs.foldl Rect.union r).x - 5 = _
      rw [hx]
    · show (rs.foldl Rect.union r).y - 5 = _
      rw [hy]
    · show (rs.foldl Rect.union r).w + 2 * 5 = _
      rw [← hr, ← hx]
      ring
    · show (rs.foldl Rect.union r).h + 2 * 5 = _
      rw [← hb, ← hy]
      ring
  · unfold groupWrapperRect
    rw [childrenBoundingRect_perm hperm]

/-- Witness for C9: two concrete boxes, in both orders. -/
theorem groupWrapper_box_spec_witness :
    groupWrapperRect [⟨0, 0, 10, 10⟩, ⟨20, 5, 15, 10⟩] =
      spec_group_box ⟨0, 0, 10, 10⟩ [⟨20, 5, 15, 10⟩] ∧
    groupWrapperRect [⟨20, 5, 15, 10⟩, ⟨0, 0, 10, 10⟩] =
      groupWrapperRect [⟨0, 0, 10, 10⟩, ⟨20, 5, 15, 10⟩] :=
  groupWrapper_box_spec ⟨0, 0, 10, 10⟩ [⟨20, 5, 15, 10⟩]
    [⟨20, 5, 15, 10⟩, ⟨0, 0, 10, 10⟩] (List.Perm.swap _ _ _)

/-- Per-entry helper: for every direction and all box sizes and
positions, the line connect_line computes for a (direction, child) entry
runs from the parent's scene position plus the section 4.4 parent anchor
to the child's scene position plus the section 4.4 child anchor. -/
theorem connect_line_matches_spec_table (px py pw ph nx ny nw nh : ℚ)
    (d : Dir) :
    connect_line (px, py) pw ph (nx, ny) nw nh d =
      ((px + (spec_parent_anchor pw ph d).1,
        py + (spec_parent_anchor pw ph d).2),
       (nx + (spec_child_anchor nw nh d).1,
        ny + (spec_child_anchor nw nh d).2)) := by
  cases d <;> rfl

/-! The connect_widgets correctness development: one table line per
reachable direct edge. -/

/-- Mapping connect_line over collected entries equals mapping the spec's
table line over the corresponding tagged edges. -/
theorem map_connect_line_eq_spec (sz : Id → ℚ × ℚ) (st : LState)
    (parent : Id) (l : List (Dir × Id)) :
    l.map (fun dn =>
      connect_line (st.pos parent) (sz parent).1 (sz parent).2
        (st.pos dn.2) (sz dn.2).1 (sz dn.2).2 dn.1) =
    (l.map (fun dn => (parent, dn.1, dn.2))).map
      (spec_table_line sz st) := by
  induction l with
  | nil => rfl
  | cons dn rest ih =>
    rw [List.map_cons, List.map_cons, List.map_cons, ih]
    congr 1
    obtain ⟨d, n⟩ := dn
    cases d <;> rfl

/-- Dict assignment on a fresh key is an append. -/
theorem insertConn_append {conns : List (Dir × Id)} {d : Dir} {i : Id}
    (h : d ∉ conns.map Prod.fst) :
    insertConn conns d i = conns ++ [(d, i)] := by
  induction conns with
  | nil => rfl
  | cons q rest ih =>
    obtain ⟨d', i'⟩ := q
    rw [List.map_cons] at h
    have hd : ¬ d' = d := by
      intro he
      exact h (by rw [he]; exact List.mem_cons_self _ _)
    rw [insertConn, if_neg hd,
      ih (fun hm => h (List.mem_cons_of_mem _ hm)), List.cons_append]

/-- A successful find_direction names the direction of an entry that
holds the node. -/
theorem entry_of_find_direction_ok {c : Id} {d : Dir} :
    ∀ {l : List (Dir × List Id)}, find_direction c l = .ok d →
      ∃ ns, (d, ns) ∈ l ∧ c ∈ ns := by
  intro l
  induction l with
  | nil => intro h; simp [find_direction] at h
  | cons p rest ih =>
    obtain ⟨pd, pns⟩ := p
    intro h
    by_cases hc : c ∈ pns
    · rw [find_direction, if_pos hc] at h
      injection h with h'
      exact ⟨pns, by rw [← h']; exact List.mem_cons_self _ _, hc⟩
    · rw [find_direction, if_neg hc] at h
      obtain ⟨ns, hns, hcns⟩ := ih h
      exact ⟨ns, List.mem_cons_of_mem _ hns, hcns⟩

/-- A successful direction lookup names a declared direct edge. -/
theorem declared_of_gdtc_ok {t : Conn} {parent c : Id} {d : Dir}
    (h : get_direction_to_child t parent c = .ok d) :
    declared_edge t parent d c := by
  have h' : find_direction c (t parent) = .ok d := h
  exact entry_of_find_direction_ok h'

/-- When the attached children of a parent never repeat, find_direction
returns exactly the direction of the entry holding the node. -/
theorem find_direction_eq {c : Id} {d : Dir} {ns : List Id} :
    ∀ {l : List (Dir × List Id)},
      (l.foldr (fun p acc => p.2 ++ acc) []).Nodup →
      (d, ns) ∈ l → c ∈ ns → find_direction c l = .ok d := by
  intro l
  induction l with
  | nil => intro _ hmem _; cases hmem
  | cons p rest ih =>
    obtain ⟨pd, pns⟩ := p
    intro hnd hmem hc
    have hnd' : (pns ++ rest.foldr
        (fun (p : Dir × List Id) acc => p.2 ++ acc) []).Nodup := hnd
    rcases List.mem_cons.mp hmem with he | hmem'
    · injection he with h1 h2
      subst h1
      subst h2
      rw [find_direction, if_pos hc]
    · by_cases hcp : c ∈ pns
      · exfalso
        have hcr : c ∈ rest.foldr
            (fun (p : Dir × List Id) acc => p.2 ++ acc) [] :=
          mem_foldr_flatten.mpr ⟨(d, ns), hmem', hc⟩
        exact List.disjoint_of_nodup_append hnd' hcp hcr
      · rw [find_direction, if_neg hcp]
        exact ih (List.Nodup.of_append_right hnd') hmem' hc

/-- A declared direct edge of a parent with non-repeating children makes
the direction lookup succeed with exactly that direction. -/
theorem gdtc_of_declared {t : Conn} {parent c : Id} {d : Dir}
    (hnd : (get_nodes t parent).Nodup) (h : declared_edge t parent d c) :
    get_direction_to_child t parent c = .ok d := by
  obtain ⟨ns, hns, hcns⟩ := h
  have hnd' : ((t parent).foldr
      (fun (p : Dir × List Id) acc => p.2 ++ acc) []).Nodup := hnd
  show find_direction c (t parent) = .ok d
  exact find_direction_eq hnd' hns hcns

/-- In an association list with distinct keys the value of a key is
unique. -/
theorem keys_nodup_unique_val {l : List (Dir × List Id)} {d : Dir}
    {ns1 ns2 : List Id} (hnd : (l.map Prod.fst).Nodup)
    (h1 : (d, ns1) ∈ l) (h2 : (d, ns2) ∈ l) : ns1 = ns2 := by
  induction l with
  | nil => cases h1
  | cons p rest ih =>
    rw [List.map_cons, List.nodup_cons] at hnd
    rcases List.mem_cons.mp h1 with he1 | h1'
    · rcases List.mem_cons.mp h2 with he2 | h2'
      · exact congrArg Prod.snd (he1.trans he2.symm)
      · have hd : d = p.1 := congrArg Prod.fst he1
        exact absurd (hd ▸ List.mem_map_of_mem Prod.fst h2') hnd.1
    · rcases List.mem_cons.mp h2 with he2 | h2'
      · have hd : d = p.1 := congrArg Prod.fst he2
        exact absurd (hd ▸ List.mem_map_of_mem Prod.fst h1') hnd.1
      · exact ih hnd.2 h1' h2'

/-- On a tree shaped like build_tree output (one child per direction,
distinct directions per parent), two children found under the same
direction coincide. -/
theorem gdtc_same_dir {t : Conn}
    (hsingle : ∀ i, ∀ p ∈ t i, ∃ c, p.2 = [c])
    (hdirs : ∀ i, ((t i).map Prod.fst).Nodup) {parent a b : Id} {d : Dir}
    (ha : get_direction_to_child t parent a = .ok d)
    (hb2 : get_direction_to_child t parent b = .ok d) : a = b := by
  have ha' : find_direction a (t parent) = .ok d := ha
  have hb' : find_direction b (t parent) = .ok d := hb2
  obtain ⟨ns1, hns1, ha1⟩ := entry_of_find_direction_ok ha'
  obtain ⟨ns2, hns2, hb1⟩ := entry_of_find_direction_ok hb'
  have hval : ns1 = ns2 := keys_nodup_unique_val (hdirs parent) hns1 hns2
  obtain ⟨c, hc⟩ := hsingle parent (d, ns1) hns1
  have hc' : ns1 = [c] := hc
  rw [hc', List.mem_singleton] at ha1
  rw [← hval, hc', List.mem_singleton] at hb1
  exact ha1.trans hb1.symm

/-- A recorded entry names its node and a successful lookup. -/
theorem chooseEdge_some {t : Conn} {parent a : Id} {pr : Dir × Id}
    (h : chooseEdge t parent a = some pr) :
    pr.2 = a ∧ get_direction_to_child t parent a = .ok pr.1 := by
  rw [chooseEdge] at h
  cases hg : get_direction_to_child t parent a with
  | ok d =>
    rw [hg] at h
    injection h with h'
    subst h'
    exact ⟨rfl, rfl⟩
  | error e =>
    rw [hg] at h
    cases h

/-- On a build_tree-shaped tree, the directions of the entries collected
over a non-repeating walk never repeat. -/
theorem chooser_dirs_nodup {t : Conn}
    (hsingle : ∀ i, ∀ p ∈ t i, ∃ c, p.2 = [c])
    (hdirs : ∀ i, ((t i).map Prod.fst).Nodup) (parent : Id) :
    ∀ ws : List Id, ws.Nodup →
      ((ws.filterMap (chooseEdge t parent)).map Prod.fst).Nodup := by
  intro ws hnd
  induction ws with
  | nil => simp
  | cons a rest ih =>
    rw [List.nodup_cons] at hnd
    obtain ⟨hna, hndr⟩ := hnd
    cases hce : chooseEdge t parent a with
    | none =>
      simp only [List.filterMap_cons, hce]
      exact ih hndr
    | some pr =>
      simp only [List.filterMap_cons, hce, List.map_cons, List.nodup_cons]
      refine ⟨?_, ih hndr⟩
      intro hmem
      obtain ⟨pr2, hpr2, hfst⟩ := List.mem_map.mp hmem
      obtain ⟨b, hb2, hb3⟩ := List.mem_filterMap.mp hpr2
      obtain ⟨_, hg2⟩ := chooseEdge_some hb3
      obtain ⟨_, hg1⟩ := chooseEdge_some hce
      have hab : a = b := gdtc_same_dir hsingle hdirs hg1 (hfst ▸ hg2)
      exact hna (hab ▸ hb2)

/-- The traversal loop of connect_widgets meets its contract: it
succeeds, its connection map grows by exactly the entries the walk
yields, the visited list grows only within reach of the parent, the
closure invariant survives, every direct child rooting a larger subtree
ends visited, and the lines grow by exactly one spec table line per
declared edge of each newly finished node outside the exception list. -/
theorem connectWalk_main {t : Conn} {N : Nat} {sz : Id → ℚ × ℚ}
    {st : LState} (fuel : Nat) (S : List Id) (parent : Id)
    (hrec : ∀ (c : Id) (vis : List Id)
      (lines : List ((ℚ × ℚ) × (ℚ × ℚ))),
      missing N vis < fuel → c < N → c ∉ vis →
      ClosedL t vis (c :: parent :: S) →
      ConnectOk t sz st c (connect_widgets t N sz st fuel c vis lines)
        vis lines (parent :: S))
    (hb : ∀ i, ∀ c ∈ get_nodes t i, c < N) :
    ∀ (ws : List Id) (vis : List Id)
      (lines : List ((ℚ × ℚ) × (ℚ × ℚ))) (conns : List (Dir × Id)),
      missing N vis < fuel →
      ClosedL t vis (parent :: S) →
      ((conns ++ ws.filterMap (chooseEdge t parent)).map Prod.fst).Nodup →
      ∃ (vis' : List Id) (lines' : List ((ℚ × ℚ) × (ℚ × ℚ)))
        (newEdges : List (Id × Dir × Id)),
        connectWalk t N (connect_widgets t N sz st fuel) parent ws vis
            lines conns =
          .ok (vis', lines', conns ++ ws.filterMap (chooseEdge t parent)) ∧
        (∀ x ∈ vis, x ∈ vis') ∧
        (∀ x ∈ vis', x ∈ vis ∨ ∃ c, edge t parent c ∧ Reach t c x) ∧
        ClosedL t vis' (parent :: S) ∧
        lines' = lines ++ newEdges.map (spec_table_line sz st) ∧
        newEdges.Nodup ∧
        (∀ e ∈ newEdges, declared_edge t e.1 e.2.1 e.2.2 ∧
          e.1 ∈ vis' ∧ e.1 ∉ vis) ∧
        (∀ p, p ∈ vis' → p ∉ vis → p ∉ parent :: S →
          ∀ d c, declared_edge t p d c → (p, d, c) ∈ newEdges) ∧
        (∀ c ∈ ws, ∀ d, get_direction_to_child t parent c = .ok d →
          1 < (walk_depth_first t N c).length → c ∈ vis') := by
  intro ws
  induction ws with
  | nil =>
    intro vis lines conns hm hcl _
    exact ⟨vis, lines, [], by simp [connectWalk], fun x hx => hx,
      fun x hx => Or.inl hx, hcl, by simp, List.nodup_nil,
      fun e he => absurd he (List.not_mem_nil e),
      fun p hp hnp => absurd hp hnp,
      fun c hc => absurd hc (List.not_mem_nil c)⟩
  | cons node rest ih =>
    intro vis lines conns hm hcl hkeys
    cases hg : get_direction_to_child t parent node with
    | error err =>
      have hch : chooseEdge t parent node = none := by
        simp [chooseEdge, hg]
      have hfm : List.filterMap (chooseEdge t parent) (node :: rest) =
          List.filterMap (chooseEdge t parent) rest := by
        rw [List.filterMap_cons, hch]
      rw [hfm] at hkeys
      obtain ⟨vis', lines', newEdges, hrun, hmono, hreach, hcl', hlines,
        hnd, hsound, hcompl, hws⟩ := ih vis lines conns hm hcl hkeys
      refine ⟨vis', lines', newEdges, ?_, hmono, hreach, hcl', hlines,
        hnd, hsound, hcompl, ?_⟩
      · simp only [connectWalk, hg]
        rw [hfm]
        exact hrun
      · intro c hc d hd hlen
        rcases List.mem_cons.mp hc with rfl | hc'
        · rw [hg] at hd
          cases hd
        · exact hws c hc' d hd hlen
    | ok d =>
      have hedge : edge t parent node := child_of_gdtc_ok hg
      have hnodeN : node < N := hb parent node hedge
      have hch : chooseEdge t parent node = some (d, node) := by
        simp [chooseEdge, hg]
      have hfm : List.filterMap (chooseEdge t parent) (node :: rest) =
          (d, node) :: List.filterMap (chooseEdge t parent) rest := by
        rw [List.filterMap_cons, hch]
      have hkeys2 : ((conns ++
          (d, node) :: List.filterMap (chooseEdge t parent) rest).map
            Prod.fst).Nodup := by
        rw [← hfm]
        exact hkeys
      have hkeys3 : (conns.map Prod.fst ++
          ((d, node) :: List.filterMap (chooseEdge t parent) rest).map
            Prod.fst).Nodup := by
        rw [← List.map_append]
        exact hkeys2
      have hdfresh : d ∉ conns.map Prod.fst := fun hdc =>
        List.disjoint_of_nodup_append hkeys3 hdc
          (by rw [List.map_cons]; exact List.mem_cons_self _ _)
      have hins : insertConn conns d node = conns ++ [(d, node)] :=
        insertConn_append hdfresh
      have hkeysR : (((conns ++ [(d, node)]) ++
          List.filterMap (chooseEdge t parent) rest).map Prod.fst).Nodup := by
        rw [List.append_assoc, List.singleton_append]
        exact hkeys2
      have hconnseq : (conns ++ [(d, node)]) ++
          List.filterMap (chooseEdge t parent) rest =
          conns ++ List.filterMap (chooseEdge t parent) (node :: rest) := by
        rw [hfm, List.append_assoc, List.singleton_append]
      by_cases hlen : 1 < (walk_depth_first t N node).length
      · by_cases hnv : node ∈ vis
        · have hfpos : fuel ≠ 0 := by
            intro h0
            rw [h0] at hm
            exact absurd hm (Nat.not_lt_zero _)
          have hnoop : connect_widgets t N sz st fuel node vis lines =
              .ok (vis, lines) := by
            obtain ⟨k, rfl⟩ := Nat.exists_eq_succ_of_ne_zero hfpos
            rw [connect_widgets, if_pos hnv]
          obtain ⟨vis', lines', newEdges, hrun, hmono, hreach, hcl',
            hlines, hnd, hsound, hcompl, hws⟩ :=
            ih vis lines (conns ++ [(d, node)]) hm hcl hkeysR
          refine ⟨vis', lines', newEdges, ?_, hmono, hreach, hcl',
            hlines, hnd, hsound, hcompl, ?_⟩
          · simp only [connectWalk, hg, if_pos hlen, hnoop, hins]
            rw [← hconnseq]
            exact hrun
          · intro c hc d' hd' hlen'
            rcases List.mem_cons.mp hc with rfl | hc'
            · exact hmono c hnv
            · exact hws c hc' d' hd' hlen'
        · have hclC : ClosedL t vis (node :: parent :: S) := by
            intro v hv hvs c hc hcint
            exact hcl v hv (fun hm' => hvs (List.mem_cons_of_mem _ hm'))
              c hc hcint
          obtain ⟨vis1, lines1, newE1, hrec_run, hmono1, hin1, hreach1,
            hcl1, hlines1, hnd1, hsound1, hcompl1⟩ :=
            hrec node vis lines hm hnodeN hnv hclC
          have hm1 : missing N vis1 < fuel :=
            Nat.lt_of_le_of_lt (missing_mono hmono1) hm
          obtain ⟨vis', lines', newE2, hrun, hmono, hreach, hcl', hlines,
            hnd, hsound, hcompl, hws⟩ :=
            ih vis1 lines1 (conns ++ [(d, node)]) hm1 hcl1 hkeysR
          refine ⟨vis', lines', newE1 ++ newE2, ?_,
            fun x hx => hmono x (hmono1 x hx), ?_, hcl', ?_, ?_, ?_, ?_,
            ?_⟩
          · simp only [connectWalk, hg, if_pos hlen, hrec_run, hins]
            rw [← hconnseq]
            exact hrun
          · intro x hx
            rcases hreach x hx with hx1 | hc
            · rcases hreach1 x hx1 with hx0 | hrx
              · exact Or.inl hx0
              · exact Or.inr ⟨node, hedge, hrx⟩
            · exact Or.inr hc
          · rw [hlines, hlines1, List.map_append, List.append_assoc]
          · refine List.Nodup.append hnd1 hnd ?_
            intro e he1 he2
            exact (hsound e he2).2.2 ((hsound1 e he1).2.1)
          · intro e he
            rcases List.mem_append.mp he with he1 | he2
            · obtain ⟨hd1, hv1, hnv1⟩ := hsound1 e he1
              exact ⟨hd1, hmono e.1 hv1, hnv1⟩
            · obtain ⟨hd2, hv2, hnv2⟩ := hsound e he2
              exact ⟨hd2, hv2, fun hxv => hnv2 (hmono1 e.1 hxv)⟩
          · intro p hp hpnv hpS d' c hdc
            by_cases hp1 : p ∈ vis1
            · exact List.mem_append_left _
                (hcompl1 p hp1 hpnv hpS d' c hdc)
            · exact List.mem_append_right _
                (hcompl p hp hp1 hpS d' c hdc)
          · intro c hc d' hd' hlen'
            rcases List.mem_cons.mp hc with rfl | hc'
            · exact hmono c hin1
            · exact hws c hc' d' hd' hlen'
      · obtain ⟨vis', lines', newEdges, hrun, hmono, hreach, hcl',
          hlines, hnd, hsound, hcompl, hws⟩ :=
          ih vis lines (conns ++ [(d, node)]) hm hcl hkeysR
        refine ⟨vis', lines', newEdges, ?_, hmono, hreach, hcl', hlines,
          hnd, hsound, hcompl, ?_⟩
        · simp only [connectWalk, hg, if_neg hlen, hins]
          rw [← hconnseq]
          exact hrun
        · intro c hc d' hd' hlen'
          rcases List.mem_cons.mp hc with rfl | hc'
          · exact absurd hlen' hlen
          · exact hws c hc' d' hd' hlen'

/-- A connect_widgets call on a fresh target meets its contract: it
succeeds, visits the target and every internal node reachable through
finished nodes, and draws exactly one section 4.4 table line per
declared direct edge of every node it finishes. -/
theorem connect_widgets_main {t : Conn} {N : Nat} {sz : Id → ℚ × ℚ}
    {st : LState}
    (hb : ∀ i, ∀ c ∈ get_nodes t i, c < N)
    (hacyc : ∀ m, ¬ Relation.TransGen (edge t) m m)
    (hsingle : ∀ i, ∀ p ∈ t i, ∃ c, p.2 = [c])
    (hdirs : ∀ i, ((t i).map Prod.fst).Nodup)
    (hchild : ∀ i, (get_nodes t i).Nodup) :
    ∀ (fuel : Nat) (target : Id) (vis : List Id)
      (lines : List ((ℚ × ℚ) × (ℚ × ℚ))) (S : List Id),
      missing N vis < fuel → target < N → target ∉ vis →
      ClosedL t vis (target :: S) →
      ConnectOk t sz st target
        (connect_widgets t N sz st fuel target vis lines) vis lines S := by
  intro fuel
  induction fuel with
  | zero =>
    intro target vis lines S h
    exact absurd h (Nat.not_lt_zero _)
  | succ fuel ihf =>
    intro target vis lines S hm htN htv hcl
    have hmvp : missing N (vis ++ [target]) < fuel :=
      Nat.lt_of_lt_of_le (missing_lt htN htv) (Nat.lt_succ_iff.mp hm)
    have hclp : ClosedL t (vis ++ [target]) (target :: S) := by
      intro v hv hvS c hc hcint
      rcases List.mem_append.mp hv with hv' | hv'
      · exact List.mem_append_left _ (hcl v hv' hvS c hc hcint)
      · rw [List.mem_singleton] at hv'
        exact absurd (hv' ▸ List.mem_cons_self target S) hvS
    have hmN : missing N ([] : List Id) < N + 1 := by
      rw [missing_nil]
      exact Nat.lt_succ_self N
    have hwnd : (walk_depth_first t N target).Nodup :=
      (walkAux_spec hacyc hb (N + 1) target [] hmN).2.2.2
    have hkeys0 : (((walk_depth_first t N target).filterMap
        (chooseEdge t target)).map Prod.fst).Nodup :=
      chooser_dirs_nodup hsingle hdirs target _ hwnd
    have hkeys : ((([] : List (Dir × Id)) ++
        (walk_depth_first t N target).filterMap
          (chooseEdge t target)).map Prod.fst).Nodup := by
      rw [List.nil_append]
      exact hkeys0
    obtain ⟨vis1, lines1, newE1, hrun, hmono1, hreach1, hcl1, hlines1,
      hnd1, hsound1, hcompl1, hws⟩ :=
      connectWalk_main fuel S target
        (fun c v l h1 h2 h3 h4 => ihf c v l (target :: S) h1 h2 h3 h4)
        hb (walk_depth_first t N target) (vis ++ [target]) lines []
        hmvp hclp hkeys
    refine ⟨vis1,
      lines1 ++ ((walk_depth_first t N target).filterMap
        (chooseEdge t target)).map (fun dn =>
          connect_line (st.pos target) (sz target).1 (sz target).2
            (st.pos dn.2) (sz dn.2).1 (sz dn.2).2 dn.1),
      newE1 ++ ((walk_depth_first t N target).filterMap
        (chooseEdge t target)).map (fun dn => (target, dn.1, dn.2)),
      ?_, ?_, ?_, ?_, ?_, ?_, ?_, ?_, ?_⟩
    · rw [connect_widgets, if_neg htv, hrun]
      rfl
    · exact fun x hx => hmono1 x (List.mem_append_left _ hx)
    · exact hmono1 target
        (List.mem_append_right _ (List.mem_singleton.mpr rfl))
    · intro x hx
      rcases hreach1 x hx with hx1 | hc
      · rcases List.mem_append.mp hx1 with hv | hv
        · exact Or.inl hv
        · rw [List.mem_singleton] at hv
          refine Or.inr ?_
          rw [hv]
          exact Relation.ReflTransGen.refl
      · obtain ⟨c, hec, hrc⟩ := hc
        exact Or.inr (Relation.ReflTransGen.head hec hrc)
    · intro v hv hvS c hc hcint
      by_cases hvt : v = target
      · rw [hvt] at hc
        have hcw : c ∈ walk_depth_first t N target :=
          mem_walk_of_child hacyc hb hc
        obtain ⟨dd, hdd⟩ := gdtc_ok_of_child hc
        obtain ⟨d2, hd2⟩ := List.exists_mem_of_ne_nil _ hcint
        exact hws c hcw dd hdd (one_lt_walk_length hacyc hb hd2)
      · exact hcl1 v hv
          (fun hmem => (List.mem_cons.mp hmem).elim hvt hvS) c hc hcint
    · rw [hlines1, List.append_assoc, List.map_append,
        map_connect_line_eq_spec]
    · refine List.Nodup.append hnd1 ?_ ?_
      · refine List.Nodup.map ?_ (List.Nodup.of_map Prod.fst hkeys0)
        intro a b hab
        have h1 : a.1 = b.1 := congrArg (fun e => e.2.1) hab
        have h2 : a.2 = b.2 := congrArg (fun e => e.2.2) hab
        exact Prod.ext h1 h2
      · intro e he1 he2
        obtain ⟨dn, _, hdn⟩ := List.mem_map.mp he2
        have het : e.1 = target := by rw [← hdn]
        exact (hsound1 e he1).2.2 (by
          rw [het]
          exact List.mem_append_right _ (List.mem_singleton.mpr rfl))
    · intro e he
      rcases List.mem_append.mp he with he1 | he2
      · obtain ⟨hd1, hv1, hnv1⟩ := hsound1 e he1
        exact ⟨hd1, hv1, fun hxv => hnv1 (List.mem_append_left _ hxv)⟩
      · obtain ⟨dn, hdnm, hdn⟩ := List.mem_map.mp he2
        subst hdn
        obtain ⟨a, haw, hca⟩ := List.mem_filterMap.mp hdnm
        obtain ⟨ha2, hg2⟩ := chooseEdge_some hca
        refine ⟨?_, hmono1 target
          (List.mem_append_right _ (List.mem_singleton.mpr rfl)), htv⟩
        show declared_edge t target dn.1 dn.2
        rw [ha2]
        exact declared_of_gdtc_ok hg2
    · intro p hp hpv hpS d c hdc
      by_cases hpt : p = target
      · refine List.mem_append_right _ ?_
        obtain ⟨ns, hns, hcns⟩ := hdc
        have hedge : edge t p c := mem_get_nodes.mpr ⟨(d, ns), hns, hcns⟩
        have hgd : get_direction_to_child t p c = .ok d :=
          gdtc_of_declared (hchild p) ⟨ns, hns, hcns⟩
        have hgd2 : get_direction_to_child t target c = .ok d := by
          rw [← hpt]
          exact hgd
        have hcw : c ∈ walk_depth_first t N target := by
          rw [← hpt]
          exact mem_walk_of_child hacyc hb hedge
        have hce : chooseEdge t target c = some (d, c) := by
          simp [chooseEdge, hgd2]
        refine List.mem_map.mpr
          ⟨(d, c), List.mem_filterMap.mpr ⟨c, hcw, hce⟩, ?_⟩
        rw [hpt]
      · have hpv1 : p ∉ vis ++ [target] := by
          intro hmem
          rcases List.mem_append.mp hmem with h | h
          · exact hpv h
          · rw [List.mem_singleton] at h
            exact hpt h
        exact List.mem_append_left _
          (hcompl1 p hp hpv1
            (fun hmem => (List.mem_cons.mp hmem).elim hpt hpS) d c hdc)

/-- Every connection entry of the scenario tree holds exactly one
child. -/
theorem t3_single : ∀ i, ∀ p ∈ t3 i, ∃ c, p.2 = [c] := by
  intro i
  match i with
  | 0 =>
    intro p hp
    simp [t3] at hp
    exact ⟨1, by rw [hp]⟩
  | 1 =>
    intro p hp
    simp [t3] at hp
    exact ⟨2, by rw [hp]⟩
  | n + 2 =>
    intro p hp
    simp [t3] at hp

/-- The scenario tree lists each parent's directions without
repetition. -/
theorem t3_dirs : ∀ i, ((t3 i).map Prod.fst).Nodup := by
  intro i
  match i with
  | 0 => decide
  | 1 => decide
  | n + 2 => simp [t3]

/-- The scenario tree attaches each parent's children without
repetition. -/
theorem t3_child : ∀ i, (get_nodes t3 i).Nodup := by
  intro i
  match i with
  | 0 => decide
  | 1 => decide
  | n + 2 => simp [get_nodes, t3]

/-- C7: on a bounded acyclic tree shaped like build_tree output (one
child per direction, distinct directions per parent, each child attached
once), and for all widget sizes and scene positions, the top-level
connect_widgets call succeeds and draws exactly one straight line per
direct parent-to-child edge whose parent is reachable from the root —
the drawn lines are the spec table lines of an enumeration, without
repetition, of exactly those edges: each line runs from the parent's
scene position plus the section 4.4 parent-side anchor offset of the
edge's direction to the child's scene position plus the child-side
anchor offset. -/
theorem connect_widgets_draws_spec_lines (t : Conn) (N : Nat)
    (sz : Id → ℚ × ℚ) (st : LState) (root : Id)
    (hb : ∀ i, ∀ c ∈ get_nodes t i, c < N)
    (hacyc : ∀ m, ¬ Relation.TransGen (edge t) m m)
    (hroot : root < N)
    (hsingle : ∀ i, ∀ p ∈ t i, ∃ c, p.2 = [c])
    (hdirs : ∀ i, ((t i).map Prod.fst).Nodup)
    (hchild : ∀ i, (get_nodes t i).Nodup) :
    ∃ (vis : List Id) (lines : List ((ℚ × ℚ) × (ℚ × ℚ)))
      (edges : List (Id × Dir × Id)),
      connect_widgets t N sz st (N + 1) root [] [] = .ok (vis, lines) ∧
      lines = edges.map (spec_table_line sz st) ∧
      edges.Nodup ∧
      (∀ p d c, (p, d, c) ∈ edges ↔
        (Reach t root p ∧ declared_edge t p d c)) := by
  have hm : missing N ([] : List Id) < N + 1 := by
    rw [missing_nil]
    exact Nat.lt_succ_self N
  obtain ⟨vis', lines', newEdges, hrun, hmono, hrootmem, hreach, hcl,
    hlines, hnd, hsound, hcompl⟩ :=
    connect_widgets_main hb hacyc hsingle hdirs hchild (N + 1) root []
      [] [] hm hroot (List.not_mem_nil root)
      (fun v hv => absurd hv (List.not_mem_nil v))
  refine ⟨vis', lines', newEdges, hrun, ?_, hnd, ?_⟩
  · rw [hlines, List.nil_append]
  · intro p d c
    constructor
    · intro hmem
      obtain ⟨hdecl, hvin, _⟩ := hsound (p, d, c) hmem
      rcases hreach p hvin with h0 | h1
      · exact absurd h0 (List.not_mem_nil p)
      · exact ⟨h1, hdecl⟩
    · rintro ⟨hr, hdecl⟩
      have key : ∀ m, Reach t root m → get_nodes t m ≠ [] →
          m ∈ vis' := by
        intro m hr2
        induction hr2 with
        | refl => intro _; exact hrootmem
        | @tail b c2 hrb he ih =>
          intro hcint
          have hbint : get_nodes t b ≠ [] := by
            intro hnil
            rw [edge, hnil] at he
            exact absurd he (List.not_mem_nil _)
          exact hcl b (ih hbint) (List.not_mem_nil _) c2 he hcint
      have hpint : get_nodes t p ≠ [] := by
        obtain ⟨ns, hns, hcns⟩ := hdecl
        intro hnil
        have hcg : c ∈ get_nodes t p :=
          mem_get_nodes.mpr ⟨(d, ns), hns, hcns⟩
        rw [hnil] at hcg
        exact absurd hcg (List.not_mem_nil c)
      exact hcompl p (key p hr hpint) (List.not_mem_nil p)
        (List.not_mem_nil p) d c hdecl

/-- Witness for C7 at the scenario tree A →e B →s C with the scenario
widget sizes and the fresh scene state. -/
theorem connect_widgets_draws_spec_lines_witness :
    ∃ (vis : List Id) (lines : List ((ℚ × ℚ) × (ℚ × ℚ)))
      (edges : List (Id × Dir × Id)),
      connect_widgets t3 3 sz3 st0 (3 + 1) 0 [] [] = .ok (vis, lines) ∧
      lines = edges.map (spec_table_line sz3 st0) ∧
      edges.Nodup ∧
      (∀ p d c, (p, d, c) ∈ edges ↔
        (Reach t3 0 p ∧ declared_edge t3 p d c)) :=
  connect_widgets_draws_spec_lines t3 3 sz3 st0 0 t3_bound t3_acyc
    (by decide) t3_single t3_dirs t3_child

/-- C6 amended: in parent_to_node = true mode, calculate_position adds
the group-inflation term (group extent minus shape extent) under
positional tests, not under a test of the side that actually grew: for
an inverted direction containing e the horizontal term applies iff the
node's shape x is exactly 0, for w iff it is nonzero; for inverted s the
vertical term applies iff the shape's y is exactly 0; only for inverted
n is the test — the shape's top differing from the group's top — a
genuine test of the facing side. -/
theorem group_inflation_positional_rule (p nd : BRect) (ms : ℚ) :
    calculate_position p nd Dir.w ms true =
      (nd.x + nd.w + (if nd.x = 0 then nd.gw - nd.w else 0) + ms,
        nd.y + nd.h / 2 - p.h / 2) ∧
    calculate_position p nd Dir.e ms true =
      (nd.x - ms - (if nd.x ≠ 0 then nd.gw - nd.w else 0) - p.w,
        nd.y + nd.h / 2 - p.h / 2) ∧
    calculate_position p nd Dir.s ms true =
      (nd.x + nd.w / 2 - p.w / 2,
        nd.y - ms - (if nd.y ≠ nd.gy then nd.gh - nd.h else 0) - p.h) ∧
    calculate_position p nd Dir.n ms true =
      (nd.x + nd.w / 2 - p.w / 2,
        nd.y + nd.h + ms + (if nd.y = 0 then nd.gh - nd.h else 0)) :=
  ⟨rfl, rfl, rfl, rfl⟩

set_option allowUnsafeReducibility true

section ConcreteEvaluation

attribute [local semireducible] Rat.add Rat.sub Rat.mul Rat.inv

/-- C1 counterexample: at the scenario (A = 0 of size 40 by 20, B = 1 of
30 by 10, C = 2 of 20 by 20, min_spacing 30, shapes initially at the
origin) the claim's first step — C positioned relative to B at
x = B.x — is false of the code: the run leaves C at x = 0 while B ends
at x = −5; C is in fact never repositioned (the code places B relative
to C instead). -/
theorem scenario_c_not_at_parent_x :
    run3.toOption.map (fun r => ((r.1.pos 2).1, (r.1.pos 1).1)) =
      some (0, -5) ∧ ((0 : ℚ) ≠ -5) := by
  refine ⟨by decide, by decide⟩

/-- C1 amended: laying out from A performs exactly two placements, in
this order: first B's group is placed relative to C through the inverted
direction n at B = (C.x + C.w/2 − B.w/2, C.y − 30 − B.h) = (−5, −40);
then, A being unpositioned and B positioned, A's group is placed
relative to B through the inverted direction w (group-inflation term
zero) at A = (B.x − 30 − A.w, B.y + B.h/2 − A.h/2) = (−75, −45). C
itself never moves, so the final positions satisfy
C.x = B.x + B.w/2 − C.w/2 and C.y = B.y + B.h + 30, and equivalently
B.x = A.x + A.w + 30 and B.y = A.y + A.h/2 − B.h/2. -/
theorem scenario_actual_two_placements :
    run3.toOption.map
        (fun r => (r.1.log, r.1.pos 0, r.1.pos 1, r.1.pos 2)) =
      some ([(1, (-5, -40)), (0, (-75, -45))],
        (-75, -45), (-5, -40), (0, 0)) ∧
    ((0 : ℚ) = -5 + 30 / 2 - 20 / 2) ∧ ((0 : ℚ) = -40 + 10 + 30) ∧
    ((-5 : ℚ) = -75 + 40 + 30) ∧
    ((-40 : ℚ) = -45 + 20 / 2 - 10 / 2) := by
  refine ⟨by decide, by decide, by decide, by decide, by decide⟩

/-- C3 counterexample: in the two-node tree A = 0 →e→ B = 1 (fresh
state) the successful top-level layout call leaves the leaf B with
positioned still false; only A, which placed itself relative to B, is
marked. -/
theorem layout_leaf_not_positioned :
    run2.toOption.map (fun r => (r.1.positioned 0, r.1.positioned 1)) =
      some (true, false) := by decide

/-- C4: the failing behavior at the concrete input — with Python's
shared default `visited=[]`, the second top-level layout call on the
same root receives the visited list the first call mutated, finds the
root already recorded, and returns immediately: the whole second run is
a no-op (state and visited identical to the first call's results, no new
placement), instead of the fresh full traversal the claim requires. The
second conjunct shows the first call did record the root and perform a
placement. -/
theorem layout_visited_persists_across_calls :
    run2again = run2 ∧
    run2.toOption.map (fun r => (r.2, r.1.log.map Prod.fst)) =
      some ([0], [0]) := by
  refine ⟨rfl, by decide⟩

/-- C5: the code evaluated at the failing input — parent 10 by 10 at the
origin, child 20 by 20 at the origin, direction n, min_spacing 30,
parent_to_node false. The claim requires the child above the parent at
y = p_y − 30 − n_h = −50; the code computes
y = n_y − 30 − spacing_y − p_h = −40 (with `spacing_y` stale at 0),
using the child's own y and the parent's height. The x and the s case
match the claim. -/
theorem calc_position_north_child_bug :
    calculate_position ⟨0, 0, 10, 10, 0, 0, 10, 10⟩
        ⟨0, 0, 20, 20, 0, 0, 20, 20⟩ Dir.n 30 false = (-5, -40) ∧
    calculate_position ⟨0, 0, 10, 10, 0, 0, 10, 10⟩
        ⟨0, 0, 20, 20, 0, 0, 20, 20⟩ Dir.s 30 false = (-5, 40) ∧
    ((-40 : ℚ) ≠ 0 - 30 - 20) := by
  refine ⟨by decide, by decide, by decide⟩

/-- C6 counterexample: node shape at (5, 0) of size 10 by 10 whose group
box (5, 0, 20, 10) is inflated by 10 exactly on the east side — the side
facing the eastward placement (direction w, inverted to e, min_spacing
30). The claim requires the extra spacing term 10 (x = 55); the code's
test is positional (`n_x == 0`) and adds nothing: x = 45. -/
theorem group_inflation_side_test_fails :
    inflatedOnEast ⟨5, 0, 10, 10, 5, 0, 20, 10⟩ ∧
    calculate_position ⟨0, 0, 10, 10, 0, 0, 10, 10⟩
        ⟨5, 0, 10, 10, 5, 0, 20, 10⟩ Dir.w 30 true = (45, 0) ∧
    ((45 : ℚ) ≠ 5 + 10 + (20 - 10) + 30) := by
  refine ⟨⟨by decide, by decide⟩, by decide, by decide⟩

end ConcreteEvaluation

end MapLayout
